import Mathlib

/-!
Verification development for the muonline-packet wire protocol core:
frame kinds, packet assembly and parsing, the block transform, and the
stream codec. Bytes are modelled as Nat values below 256; u32 arithmetic
is Nat with explicit reduction modulo 2 ^ 32 where the source can wrap;
u8 shifts discard overflowing bits, hence reductions modulo 256.
Fallible operations return Except or Option; source panics (assertion
failures, out of range slicing) are modelled as error or none outcomes
and are noted at each definition.
-/

set_option maxRecDepth 40000

namespace MuPacket

/-- Frame kind discriminator of kind.rs, wire bytes 0xC1 to 0xC4. -/
inductive PacketKind where
  | C1
  | C2
  | C3
  | C4
deriving DecidableEq, Repr

namespace PacketKind

/-- Wire byte of each kind, the repr(u8) discriminant values. -/
def toByte : PacketKind → Nat
  | C1 => 0xC1
  | C2 => 0xC2
  | C3 => 0xC3
  | C4 => 0xC4

/-- PacketKind::from_byte. -/
def from_byte (byte : Nat) : Option PacketKind :=
  if byte = 0xC1 then some C1
  else if byte = 0xC2 then some C2
  else if byte = 0xC3 then some C3
  else if byte = 0xC4 then some C4
  else none

/-- PacketKind::max_size: u8 or u16 maximum. -/
def max_size : PacketKind → Nat
  | C1 | C3 => 0xFF
  | C2 | C4 => 0xFFFF

/-- PacketKind::bytes, the width of the size field. -/
def bytes : PacketKind → Nat
  | C1 | C3 => 1
  | C2 | C4 => 2

/-- PacketKind::encrypted. -/
def encrypted : PacketKind → PacketKind
  | C1 => C3
  | C2 => C4
  | k => k

/-- PacketKind::decrypted. -/
def decrypted : PacketKind → PacketKind
  | C3 => C1
  | C4 => C2
  | k => k

/-- PacketKind::is_encrypted. -/
def is_encrypted (k : PacketKind) : Bool := k == C3 || k == C4

/-- PacketKind::offset, the header data offset: the encrypted variants lack
the protocol byte. -/
def offset (k : PacketKind) : Nat := k.bytes + (if k.is_encrypted then 1 else 2)

/-- PacketKind::from_size. -/
def from_size (size : Nat) (enc : Bool) : Option PacketKind :=
  let lower := if enc then C3 else C1
  let upper := if enc then C4 else C2
  let size := size + lower.offset
  if size ≤ lower.max_size then some lower
  else if size ≤ upper.max_size then some upper
  else none

end PacketKind

/-- The in-memory packet of packet.rs. -/
structure Packet where
  kind : PacketKind
  code : Nat
  data : List Nat
deriving DecidableEq, Repr

/-- Packet::new: the kind is normalized to its decrypted variant and the
payload starts empty. -/
def Packet.new (kind : PacketKind) (code : Nat) : Packet :=
  ⟨kind.decrypted, code, []⟩

/-- Packet::append. -/
def Packet.append (p : Packet) (slice : List Nat) : Packet :=
  { p with data := p.data ++ slice }

/-- Packet::len, the total framed length. -/
def Packet.len (p : Packet) : Nat := p.kind.offset + p.data.length

/-- Packet::is_empty. -/
def Packet.is_empty (p : Packet) : Bool := p.len == 0

/-- Packet::xorcrypt. The iterator argument is the list of indices the loop
visits: ascending for encryption, descending for decryption. -/
def Packet.xorcrypt (cipher : List Nat) (kind : PacketKind) (code : Nat)
    (data : List Nat) (iter : List Nat) : List Nat :=
  iter.foldl (fun d index =>
    let other := if index = 0 then code else d.getD (index - 1) 0
    let xori := (kind.offset + index) % cipher.length
    d.set index (d.getD index 0 ^^^ (cipher.getD xori 0 ^^^ other))) data

/-- Error kinds of std io as used by the crate. -/
inductive IoErr where
  | invalidData (msg : String)
  | unexpectedEof (msg : String)
  | otherErr (msg : String)
deriving DecidableEq, Repr

/-- Cursor read of one byte (read_u8): past the end of the buffer the read
fails with an UnexpectedEof io error. -/
def read_u8 (bytes : List Nat) (pos : Nat) : Except IoErr (Nat × Nat) :=
  if pos < bytes.length then .ok (bytes.getD pos 0, pos + 1)
  else .error (.unexpectedEof "failed to fill whole buffer")

/-- Cursor read of an n byte big endian unsigned integer, as in
read_uint::<BigEndian>. -/
def read_uint (bytes : List Nat) (pos : Nat) : Nat → Except IoErr (Nat × Nat)
  | 0 => .ok (0, pos)
  | n+1 => do
    let (hi, pos) ← read_u8 bytes pos
    let (rest, pos) ← read_uint bytes pos n
    .ok (hi * 256 ^ n + rest, pos)

/-- Big endian byte encoding with a fixed width, as in
write_uint::<BigEndian>. The source panics when the value does not fit;
every call site below writes a value that fits. -/
def write_uint (value : Nat) : Nat → List Nat
  | 0 => []
  | n+1 => value / 256 ^ n % 256 :: write_uint value n

/-- The descending loop of Crypto::shift_bytes for a positive delta, run for
index from size - 1 down to 1: each step reads the byte below, which is
rewritten only by a later step. -/
def shift_bytes_pos : List Nat → Nat → Nat → List Nat
  | out, _, 0 => out
  | out, delta, index+1 =>
    let v := ((out.getD index 0 <<< (8 - delta)) % 256) ||| (out.getD (index+1) 0 >>> delta)
    shift_bytes_pos (out.set (index+1) v) delta index

/-- The ascending loop of Crypto::shift_bytes for a negative delta, run for
index from 0 to size - 1 (the fuel counts the remaining steps): each step
reads the byte above, which was rewritten by no earlier step. -/
def shift_bytes_neg : List Nat → Nat → Nat → Nat → List Nat
  | out, _, _, 0 => out
  | out, delta, index, fuel+1 =>
    let v := (out.getD (index+1) 0 >>> (8 - delta)) ||| ((out.getD index 0 <<< delta) % 256)
    shift_bytes_neg (out.set index v) delta (index+1) fuel

/-- Crypto::shift_bytes. -/
def shift_bytes (out : List Nat) (size : Nat) (delta : Int) : List Nat :=
  if delta = 0 then out
  else if 0 < delta then
    let d := delta.toNat
    let out := if 1 < size then shift_bytes_pos out d (size - 1) else out
    out.set 0 (out.getD 0 0 >>> d)
  else
    let d := (-delta).toNat
    let out := if 1 < size then shift_bytes_neg out d 0 size else out
    out.set (size - 1) ((out.getD (size - 1) 0 <<< d) % 256)

/-- The scratch buffer of Crypto::hash_buffer: size bytes, the first
size - 1 copied from the input at byte position base, the last zero. The
source copy panics past the input end; the call sites below stay in range. -/
def init_buffer (input : List Nat) (base : Nat) : Nat → List Nat
  | 0 => []
  | 1 => [0]
  | n+2 => input.getD base 0 :: init_buffer input (base+1) (n+1)

/-- The final loop of Crypto::hash_buffer: out[base+i] |= buffer[i] for
count indices i in ascending order. -/
def or_into : List Nat → Nat → List Nat → Nat → Nat → List Nat
  | out, _, _, _, 0 => out
  | out, base, buffer, i, fuel+1 =>
    or_into (out.set (base+i) (out.getD (base+i) 0 ||| buffer.getD i 0)) base buffer (i+1) fuel

/-- Crypto::hash_buffer: copies delta bits of the input starting at bit
offset_in into the output starting at bit offset_out, or-ing into the
destination bytes. The source also returns offset_out + delta; call sites
below advance the position themselves. -/
def hash_buffer (out : List Nat) (offset_out : Nat) (input : List Nat)
    (offset_in delta : Nat) : List Nat :=
  let size := ((offset_in + delta - 1) >>> 3) - (offset_in >>> 3) + 2
  let buffer := init_buffer input (offset_in >>> 3) size
  let disp := (offset_in + delta) % 8
  let buffer := if disp ≠ 0 then
      buffer.set (size - 2) (buffer.getD (size - 2) 0 &&& ((0xFF <<< (8 - disp)) % 256))
    else buffer
  let buffer := shift_bytes buffer (size - 1) (-(offset_in % 8 : Int))
  let buffer := shift_bytes buffer size ((offset_out % 8 : Nat) : Int)
  let mod_size := (size - 1) + (if offset_in % 8 < offset_out % 8 then 1 else 0)
  or_into out (offset_out >>> 3) buffer 0 mod_size

/-- Little endian 16 bit read at element index, as in
read_u16::<LittleEndian> on a cursor. -/
def le16 (l : List Nat) (i : Nat) : Nat := l.getD (2*i) 0 + 256 * l.getD (2*i+1) 0

/-- Little endian byte decomposition of a 32 bit word, as in
LittleEndian::write_u32. -/
def le_bytes (v : Nat) : List Nat := [v % 256, v / 256 % 256, v / 65536 % 256, v / 16777216 % 256]

/-- Little endian 32 bit read, as in LittleEndian::read_u32. -/
def le32 (l : List Nat) : Nat :=
  l.getD 0 0 + 256 * l.getD 1 0 + 65536 * l.getD 2 0 + 16777216 * l.getD 3 0

/-- Crypto::slice_with_padding: pad to eight bytes with zeroes. -/
def slice_with_padding (slice : List Nat) : List Nat :=
  slice ++ List.replicate (8 - slice.length) 0

/-- The first loop of Crypto::convert_8to11_bytes: the modular transform of
the four 16 bit input values, threading the running crypt value; the u32
multiplication wraps modulo 2 ^ 32. A zero modulus key would be a source
panic; table well-formedness below excludes it. -/
def enc_words (keys input : List Nat) : Nat → Nat → Nat → List Nat
  | _, _, 0 => []
  | crypt, index, fuel+1 =>
    let data := le16 input index
    let data := data ^^^ (keys.getD (12+index) 0 ^^^ crypt)
    let data := data * keys.getD (4+index) 0 % 4294967296
    let data := data % keys.getD index 0
    data :: enc_words keys input (data &&& 0xFFFF) (index+1) fuel

/-- The second loop of Crypto::convert_8to11_bytes, run for index 0 to 2 in
ascending order: each step reads the value above, which no earlier step
rewrote. -/
def enc_chain (keys : List Nat) : Nat → Nat → List Nat → List Nat
  | _, 0, vals => vals
  | index, fuel+1, vals =>
    let v := vals.getD index 0 ^^^ (keys.getD (12+index) 0 ^^^ (vals.getD (index+1) 0 &&& 0xFFFF))
    enc_chain keys (index+1) fuel (vals.set index v)

/-- The bit packing fold of Crypto::convert_8to11_bytes: per word the low 16
bits, then bits 22 to 24 of its little endian byte image; the running bit
position advances by 18 per word. -/
def pack_words (out : List Nat) (pos : Nat) : List Nat → List Nat
  | [] => out
  | v :: rest =>
    let out := hash_buffer out pos (le_bytes v) 0 16
    let out := hash_buffer out (pos+16) (le_bytes v) 22 2
    pack_words out (pos+18) rest

/-- Crypto::convert_8to11_bytes on one block: eleven output bytes. -/
def convert_8to11_bytes (keys : List Nat) (slice : List Nat) : List Nat :=
  let input := slice_with_padding slice
  let vals := enc_words keys input 0 0 4
  let vals := enc_chain keys 0 3 vals
  let out := pack_words (List.replicate 11 0) 0 vals
  let xor := input.foldl (fun x v => x ^^^ v) 0xF8
  let finale := [xor ^^^ slice.length % 256 ^^^ 0x3D, xor, 0, 0]
  hash_buffer out 72 finale 0 16

/-- The bit unpacking loop of Crypto::convert_11to8_bytes: four 18 bit
fields assembled little endian. -/
def unpack_words (slice : List Nat) : Nat → Nat → List Nat
  | _, 0 => []
  | offset, fuel+1 =>
    let data := hash_buffer (List.replicate 4 0) 0 slice offset 16
    let data := hash_buffer data 22 slice (offset+16) 2
    le32 data :: unpack_words slice (offset+18) fuel

/-- The reverse xor chain of Crypto::convert_11to8_bytes, run for index 2
down to 0: each step reads the value above, already rewritten by the
earlier steps where applicable. -/
def dec_chain (keys : List Nat) : Nat → List Nat → List Nat
  | 0, vals => vals
  | index+1, vals =>
    let v := vals.getD index 0 ^^^ (keys.getD (12+index) 0 ^^^ (vals.getD (index+1) 0 &&& 0xFFFF))
    dec_chain keys index (vals.set index v)

/-- The output loop of Crypto::convert_11to8_bytes, producing the eight
plaintext bytes: the u32 multiplication wraps modulo 2 ^ 32 and the write
truncates to u16, little endian. -/
def dec_words (keys : List Nat) : Nat → Nat → Nat → List Nat → List Nat
  | _, _, 0, _ => []
  | crypt, index, fuel+1, vals =>
    let original := keys.getD (8+index) 0 * vals.getD index 0 % 4294967296
    let original := original % keys.getD index 0
    let original := original ^^^ (keys.getD (index+12) 0 ^^^ crypt)
    let original := original % 65536
    original % 256 :: original / 256 :: dec_words keys (vals.getD index 0 &&& 0xFFFF) (index+1) fuel vals

/-- Crypto::convert_11to8_bytes on one block: the recovered length and the
eight output bytes, or the checksum failure. -/
def convert_11to8_bytes (keys : List Nat) (slice : List Nat) : Except IoErr (Nat × List Nat) :=
  let vals := unpack_words slice 0 4
  let vals := dec_chain keys 3 vals
  let out := dec_words keys 0 0 4 vals
  let finale := hash_buffer (List.replicate 4 0) 0 slice 72 16
  let f0 := finale.getD 0 0 ^^^ (finale.getD 1 0 ^^^ 0x3D)
  let xor := out.foldl (fun x v => x ^^^ v) 0xF8
  if finale.getD 1 0 = xor then .ok (f0, out)
  else .error (.invalidData "Incorrect data hash")

/-- Crypto key schedule: the two directional tables of 16 words. -/
structure Crypto where
  enc : List Nat
  dec : List Nat
deriving DecidableEq, Repr

/-- The chunked loop of Crypto::encrypt over blocks of eight input bytes;
the fuel bounds the number of blocks and every call passes the buffer
length, which always suffices. -/
def encrypt_go (keys : List Nat) : Nat → List Nat → List Nat
  | _, [] => []
  | 0, _ => []
  | fuel+1, data => convert_8to11_bytes keys (data.take 8) ++ encrypt_go keys fuel (data.drop 8)

/-- Crypto::encrypt: ceil(len / 8) blocks of eleven output bytes. -/
def Crypto.encrypt (c : Crypto) (data : List Nat) : List Nat :=
  encrypt_go c.enc data.length data

/-- The chunked loop of Crypto::decrypt over blocks of eleven input bytes,
collecting the output blocks and the running recovered size. -/
def decrypt_go (keys : List Nat) : Nat → List Nat → Except IoErr (List Nat × Nat)
  | _, [] => .ok ([], 0)
  | 0, _ => .ok ([], 0)
  | fuel+1, data => do
    let (size, block) ← convert_11to8_bytes keys (data.take 11)
    let (rest, total) ← decrypt_go keys fuel (data.drop 11)
    .ok (block ++ rest, size + total)

/-- Crypto::decrypt: the source asserts an input length that is a multiple
of eleven (modelled as an error), decodes each block and truncates the
output to the total recovered size. -/
def Crypto.decrypt (c : Crypto) (data : List Nat) : Except IoErr (List Nat) :=
  if data.length % 11 = 0 then
    (decrypt_go c.dec data.length data).map fun r => r.1.take r.2
  else .error (.otherErr "assertion failed: data and ENCRYPT_MOD")

/-- Little endian 32 bit read at a byte position, as in
read_u32::<LittleEndian> on a cursor. -/
def le32_at (l : List Nat) (pos : Nat) : Nat :=
  l.getD pos 0 + 256 * l.getD (pos+1) 0 + 65536 * l.getD (pos+2) 0 + 16777216 * l.getD (pos+3) 0

/-- The inner loop of Crypto::load_keys for one flag row: four words, each
read from the blob and xored with the word of its column when the flag is
set, else zero; pos is the reader position, advanced only by actual reads.
A read past the end of the blob is an unwrap panic in the source; here it
yields zero bytes, so the statements about the loader below restrict the
flag count to keep every read inside the blob. -/
def load_row (keys xor : List Nat) (flag : Bool) : Nat → Nat → Nat → List Nat × Nat
  | pos, _, 0 => ([], pos)
  | pos, i, fuel+1 =>
    if flag then
      let w := le32_at keys pos ^^^ xor.getD i 0
      let (rest, p) := load_row keys xor flag (pos+4) (i+1) fuel
      (w :: rest, p)
    else
      let (rest, p) := load_row keys xor flag pos (i+1) fuel
      (0 :: rest, p)

/-- The outer loop of Crypto::load_keys over the flag rows. -/
def load_rows (keys xor : List Nat) : List Bool → Nat → List Nat × Nat
  | [], pos => ([], pos)
  | flag :: rest, pos =>
    let (row, pos) := load_row keys xor flag pos 0 4
    let (more, pos) := load_rows keys xor rest pos
    (row ++ more, pos)

/-- Crypto::load_keys: skip the six byte prologue of the blob, then read the
rows per flag. -/
def load_keys (keys xor : List Nat) (flags : List Bool) : List Nat :=
  (load_rows keys xor flags 6).1

/-- Crypto::new. -/
def Crypto.new (enc dec xor : List Nat) : Crypto :=
  ⟨load_keys enc xor [true, true, false, true], load_keys dec xor [true, false, true, true]⟩

/-- XOR_CIPHER of crypto.rs: the four word cipher for the key blobs. -/
def XOR_CIPHER_KEYS : List Nat := [0x3F08A79B, 0xE25CC287, 0x93D27AB9, 0x20DEA7BF]

/-- Modelled from the spec: the embedded 54 byte key blob Enc1.dat is not
part of the sources; this stand-in is chosen so that the derived CLIENT
scheme satisfies the concrete encryption vectors stated in the spec. -/
def ENC1_DAT : List Nat := [0, 0, 0, 0, 0, 0, 241, 241, 10, 63, 10, 255, 93, 226, 230, 36, 208, 147, 42, 237, 223, 32, 226, 96, 8, 63, 64, 92, 92, 226, 33, 237, 210, 147, 71, 220, 222, 32, 155, 167, 8, 63, 135, 194, 92, 226, 185, 122, 210, 147, 191, 167, 222, 32]

/-- Modelled from the spec: the embedded 54 byte key blob Dec1.dat is not
part of the sources; this stand-in matches the modelled Enc1.dat so that
decryption inverts encryption. -/
def DEC1_DAT : List Nat := [0, 0, 0, 0, 0, 0, 241, 241, 10, 63, 10, 255, 93, 226, 230, 36, 208, 147, 42, 237, 223, 32, 152, 167, 8, 63, 133, 194, 92, 226, 189, 122, 210, 147, 183, 167, 222, 32, 155, 167, 8, 63, 135, 194, 92, 226, 185, 122, 210, 147, 191, 167, 222, 32]

/-- Modelled from the spec: the embedded 54 byte key blob Enc2.dat is not
part of the sources; this stand-in is chosen so that the derived SERVER
scheme satisfies the concrete encryption vectors stated in the spec. -/
def ENC2_DAT : List Nat := [0, 0, 0, 0, 0, 0, 108, 152, 9, 63, 135, 198, 93, 226, 198, 15, 209, 147, 248, 15, 221, 32, 51, 205, 8, 63, 36, 213, 92, 226, 217, 167, 210, 147, 173, 77, 222, 32, 155, 167, 8, 63, 135, 194, 92, 226, 185, 122, 210, 147, 191, 167, 222, 32]

/-- Modelled from the spec: the embedded 54 byte key blob Dec2.dat is not
part of the sources; this stand-in matches the modelled Enc2.dat so that
decryption inverts encryption. -/
def DEC2_DAT : List Nat := [0, 0, 0, 0, 0, 0, 108, 152, 9, 63, 135, 198, 93, 226, 198, 15, 209, 147, 248, 15, 221, 32, 152, 167, 8, 63, 140, 194, 92, 226, 189, 122, 210, 147, 187, 167, 222, 32, 155, 167, 8, 63, 135, 194, 92, 226, 185, 122, 210, 147, 191, 167, 222, 32]

/-- The built-in CLIENT scheme: Crypto::new over the modelled blob pair. -/
def CLIENT : Crypto := Crypto.new ENC1_DAT DEC1_DAT XOR_CIPHER_KEYS

/-- The built-in SERVER scheme: Crypto::new over the modelled blob pair. -/
def SERVER : Crypto := Crypto.new ENC2_DAT DEC2_DAT XOR_CIPHER_KEYS

/-- XOR_CIPHER of lib.rs: the default 32 byte stream cipher table. -/
def XOR_CIPHER : List Nat := [
  0xE7, 0x6D, 0x3A, 0x89, 0xBC, 0xB2, 0x9F, 0x73, 0x23, 0xA8, 0xFE, 0xB6, 0x49, 0x5D, 0x39, 0x5D,
  0x8A, 0xCB, 0x63, 0x8D, 0xEA, 0x7D, 0x2B, 0x5F, 0xC3, 0xB1, 0xE9, 0x83, 0x29, 0x51, 0xE8, 0x56]

/-- Packet::to_bytes_ex. The two source asserts (total length within the
kind maximum, and the encrypted frame within the encrypted kind maximum)
are panics, modelled as none. -/
def Packet.to_bytes_ex (p : Packet) (cipher : Option (List Nat))
    (encryption : Option (Crypto × Nat)) : Option (List Nat) :=
  if p.len ≤ p.kind.max_size then
    let head := (match encryption with
      | some (_, crypto_counter) => [crypto_counter]
      | none => p.kind.toByte :: write_uint p.len p.kind.bytes) ++ [p.code]
    let bytes := head ++ (if p.code ≠ 0xF4 then
        match cipher with
        | some c => Packet.xorcrypt c p.kind p.code p.data (List.range p.data.length)
        | none => p.data
      else p.data)
    match encryption with
    | some (crypto, _) =>
      let encrypted := crypto.encrypt bytes
      let kind := p.kind.encrypted
      let size := encrypted.length + kind.offset
      if size ≤ kind.max_size then
        some (kind.toByte :: (write_uint size kind.bytes ++ encrypted))
      else none
    | none => some bytes
  else none

/-- The xor decryption tail of Packet::from_bytes_ex: reverse the xor
whitening of the payload unless the opcode is 0xF4 or no cipher is given. -/
def recipher (packet : Packet) (cipher : Option (List Nat)) : Packet :=
  if packet.code ≠ 0xF4 then
    match cipher with
    | some c =>
      { packet with data := (Packet.xorcrypt c packet.kind packet.code packet.data
          (List.range packet.data.length).reverse) }
    | none => packet
  else packet

/-- The packet assembly tail of Packet::from_bytes_ex: build from the
normalized kind, the opcode and the raw payload, then the xor step. -/
def parse_finish (kind : PacketKind) (code : Nat) (payload : List Nat)
    (cipher : Option (List Nat)) : Packet :=
  recipher ((Packet.new kind.decrypted code).append payload) cipher

/-- Packet::from_bytes_ex: the packet, the count of consumed wire bytes and
the embedded counter of an encrypted frame. Source slicing panics (a
declared size smaller than the header) are modelled by take and drop
yielding an empty payload instead. -/
def Packet.from_bytes_ex (bytes : List Nat) (cipher : Option (List Nat))
    (decryption : Option Crypto) : Except IoErr (Packet × Nat × Option Nat) :=
  match read_u8 bytes 0 with
  | .error e => .error e
  | .ok (kbyte, pos) =>
    match PacketKind.from_byte kbyte with
    | none => .error (.invalidData "not a packet")
    | some kind =>
      match read_uint bytes pos kind.bytes with
      | .error e => .error e
      | .ok (size, pos) =>
        if bytes.length < size then .error (.unexpectedEof "missing data")
        else if kind.is_encrypted then
          match decryption with
          | none => .error (.otherErr "missing decryption for packet")
          | some decryption =>
            match decryption.decrypt ((bytes.take size).drop kind.offset) with
            | .error e => .error e
            | .ok buffer =>
              match read_u8 buffer 0 with
              | .error e => .error e
              | .ok (crypto_count, bpos) =>
                match read_u8 buffer bpos with
                | .error e => .error e
                | .ok (code, cpos) =>
                  .ok (parse_finish kind code (buffer.drop cpos) cipher, size, some crypto_count)
        else
          match read_u8 bytes pos with
          | .error e => .error e
          | .ok (code, cpos) =>
            .ok (parse_finish kind code ((bytes.take size).drop cpos) cipher, size, none)

/-- Packet::to_bytes. -/
def Packet.to_bytes (p : Packet) : Option (List Nat) := p.to_bytes_ex none none

/-- Packet::from_bytes. -/
def Packet.from_bytes (bytes : List Nat) : Except IoErr Packet :=
  (Packet.from_bytes_ex bytes none none).map fun r => r.1

/-- PacketCodecState of codec.rs. -/
structure PacketCodecState where
  cipher : Option (List Nat)
  crypto : Option Crypto
  counter : Nat
deriving DecidableEq, Repr

/-- PacketCodecState::new, also the builder default: no cipher, no crypto,
counter zero. -/
def PacketCodecState.new : PacketCodecState := ⟨none, none, 0⟩

/-- PacketCodec with its two directional states; max_size is none under
PacketCodec::new and some under with_max_size. -/
structure PacketCodec where
  encrypt : PacketCodecState
  decrypt : PacketCodecState
  max_size : Option Nat
deriving DecidableEq, Repr

/-- PacketCodec::new. -/
def PacketCodec.new (encrypt decrypt : PacketCodecState) : PacketCodec :=
  ⟨encrypt, decrypt, none⟩

/-- Encoder::encode: serialize with the send state, append to the output
buffer, and advance the send counter (u8 wrapping add of one). The source
assert inside serialization is a panic, modelled as none. -/
def PacketCodec.encode (c : PacketCodec) (packet : Packet) (output : List Nat) :
    Option (List Nat × PacketCodec) :=
  match packet.to_bytes_ex c.encrypt.cipher
      (c.encrypt.crypto.map fun cr => (cr, c.encrypt.counter)) with
  | some bytes =>
    some (output ++ bytes,
      { c with encrypt := { c.encrypt with counter := (c.encrypt.counter + 1) % 256 } })
  | none => none

/-- Decoder::decode: the outcome, the remaining input buffer, and the
updated codec. A parse failure other than UnexpectedEof propagates with
the buffer intact; a successful parse consumes the reported bytes before
the counter comparison. -/
def PacketCodec.decode (c : PacketCodec) (input : List Nat) :
    Except IoErr (Option Packet) × List Nat × PacketCodec :=
  if input.length = 0 then (.ok none, input, c)
  else if (match c.max_size with | some m => decide (m < input.length) | none => false) then
    (.error (.otherErr "max packet size exceeded"), input, c)
  else
    match Packet.from_bytes_ex input c.decrypt.cipher c.decrypt.crypto with
    | .ok (packet, bytes_read, decrypt_counter) =>
      let rest := input.drop bytes_read
      match decrypt_counter with
      | some counter =>
        if c.decrypt.counter ≠ counter then
          (.error (.otherErr ("invalid decryption counter " ++ toString counter ++
            ", expected " ++ toString c.decrypt.counter)), rest, c)
        else
          (.ok (some packet), rest,
            { c with decrypt := { c.decrypt with counter := (c.decrypt.counter + 1) % 256 } })
      | none => (.ok (some packet), rest, c)
    | .error e =>
      match e with
      | .unexpectedEof _ => (.ok none, input, c)
      | _ => (.error e, input, c)

/-- Repeated encode of a packet list from a codec, collecting the emitted
frames in order. -/
def encode_seq (c : PacketCodec) : List Packet → Option (List (List Nat) × PacketCodec)
  | [] => some ([], c)
  | p :: ps =>
    match c.encode p [] with
    | some (bytes, c2) => (encode_seq c2 ps).map fun r => (bytes :: r.1, r.2)
    | none => none

/-- Repeated decode from a single input buffer, as the stream consumer
would issue it; the fuel bounds the number of decoded frames. -/
def decode_drain (c : PacketCodec) (input : List Nat) :
    Nat → Except IoErr (List Packet × List Nat × PacketCodec)
  | 0 => .ok ([], input, c)
  | fuel+1 =>
    match c.decode input with
    | (.ok (some p), rest, c2) =>
      (decode_drain c2 rest fuel).map fun r => (p :: r.1, r.2.1, r.2.2)
    | (.ok none, rest, c2) => .ok ([], rest, c2)
    | (.error e, _, _) => .error e

/-- Packet values constructible through the public constructors of the
crate: Packet::new, Packet::append, and parsing. -/
inductive Packet.Reachable : Packet → Prop
  | new : ∀ k c, Packet.Reachable (Packet.new k c)
  | append : ∀ p s, Packet.Reachable p → Packet.Reachable (p.append s)
  | parsed : ∀ bytes cipher d p n c,
      Packet.from_bytes_ex bytes cipher d = .ok (p, n, c) → Packet.Reachable p

/-- Count of set flag rows before row r. -/
def set_rows_before (flags : List Bool) (r : Nat) : Nat :=
  ((flags.take r).filter id).length

/-- Loader word formula as claim C6 states it, following the words of the
spec: the blob word is xored with the XOR word of the ROW. -/
def loader_word_by_row (keys xor : List Nat) (flags : List Bool) (r c : Nat) : Nat :=
  if flags.getD r false then
    le32_at keys (6 + 4 * (4 * set_rows_before flags r + c)) ^^^ xor.getD r 0
  else 0

/-- Loader word formula as the source implements it: the blob word is xored
with the XOR word of the COLUMN. -/
def loader_word_by_col (keys xor : List Nat) (flags : List Bool) (r c : Nat) : Nat :=
  if flags.getD r false then
    le32_at keys (6 + 4 * (4 * set_rows_before flags r + c)) ^^^ xor.getD c 0
  else 0

/-- Well-formedness of a key-table pair, the arithmetic facts the
roundtrip derivation uses: moduli above 65535 and at most 262144 and
equal across the two tables, multipliers at most 65535, decryption
multipliers at most 16383 and modular inverses of the encryption ones,
and xor keys below 65536 and equal across the two tables. -/
def table_wf (ek dk : List Nat) : Prop :=
  ∀ i, i < 4 → 65535 < ek.getD i 0 ∧ ek.getD i 0 ≤ 262144 ∧
    dk.getD i 0 = ek.getD i 0 ∧ ek.getD (4+i) 0 ≤ 65535 ∧ dk.getD (8+i) 0 ≤ 16383 ∧
    ek.getD (4+i) 0 * dk.getD (8+i) 0 % ek.getD i 0 = 1 ∧
    dk.getD (12+i) 0 = ek.getD (12+i) 0 ∧ ek.getD (12+i) 0 < 65536

/-- A codec with the given crypto scheme on both directions, no xor cipher
and no maximum size, with the given send counter a and receive counter b,
as the builder of codec.rs produces it. -/
def mk_codec (S : Crypto) (a b : Nat) : PacketCodec :=
  ⟨⟨none, some S, a⟩, ⟨none, some S, b⟩, none⟩

/-- A packet whose fields fit the wire: a plaintext kind, a byte opcode
and byte payload values. -/
def wire_safe (p : Packet) : Prop :=
  (p.kind = PacketKind.C1 ∨ p.kind = PacketKind.C2) ∧ p.code < 256 ∧
    ∀ b ∈ p.data, b < 256


theorem PacketKind.decrypted_plain (k : PacketKind) : k.decrypted.is_encrypted = false := by
  cases k <;> rfl

theorem Packet.append_kind (p : Packet) (s : List Nat) : (p.append s).kind = p.kind := rfl

theorem parse_finish_kind (kind : PacketKind) (code : Nat) (payload : List Nat)
    (cipher : Option (List Nat)) : (parse_finish kind code payload cipher).kind = kind.decrypted := by
  simp only [parse_finish, recipher]
  repeat' split
  all_goals cases kind <;> rfl

theorem recipher_none (p : Packet) : recipher p none = p := by
  unfold recipher
  split <;> rfl

theorem xorcrypt_length (cipher : List Nat) (kind : PacketKind) (code : Nat)
    (data iter : List Nat) :
    (Packet.xorcrypt cipher kind code data iter).length = data.length := by
  unfold Packet.xorcrypt
  induction iter generalizing data with
  | nil => rfl
  | cons i is ih =>
    rw [List.foldl_cons]
    rw [ih]
    exact List.length_set data i _

theorem from_bytes_ex_cipher (bytes : List Nat) (cipher : Option (List Nat)) (d : Option Crypto) :
    Packet.from_bytes_ex bytes cipher d =
      (Packet.from_bytes_ex bytes none d).map (fun r => (recipher r.1 cipher, r.2)) := by
  unfold Packet.from_bytes_ex
  repeat' split
  all_goals simp [Except.map, parse_finish, recipher_none]

theorem Packet.from_bytes_ex_kind {bytes : List Nat} {cipher : Option (List Nat)}
    {d : Option Crypto} {p : Packet} {n : Nat} {cnt : Option Nat}
    (h : Packet.from_bytes_ex bytes cipher d = .ok (p, n, cnt)) :
    p.kind.is_encrypted = false := by
  unfold Packet.from_bytes_ex at h
  repeat' split at h
  all_goals first
    | exact Except.noConfusion h
    | (simp only [Except.ok.injEq, Prod.mk.injEq] at h
       obtain ⟨hp, -⟩ := h
       subst hp
       rw [parse_finish_kind]
       exact PacketKind.decrypted_plain _)

/-- C8: for every frame kind the header offset equals the size field width
plus one plus one more for unencrypted kinds, giving offsets 3, 4, 2, 3,
size field widths 1, 2, 1, 2 and maximum sizes 255, 65535, 255, 65535 for
C1, C2, C3, C4 respectively. -/
theorem claim_C8_kind_table :
    (∀ k : PacketKind, k.offset = k.bytes + 1 + (if k.is_encrypted then 0 else 1)) ∧
    PacketKind.C1.offset = 3 ∧ PacketKind.C2.offset = 4 ∧
    PacketKind.C3.offset = 2 ∧ PacketKind.C4.offset = 3 ∧
    PacketKind.C1.bytes = 1 ∧ PacketKind.C2.bytes = 2 ∧
    PacketKind.C3.bytes = 1 ∧ PacketKind.C4.bytes = 2 ∧
    PacketKind.C1.max_size = 255 ∧ PacketKind.C2.max_size = 65535 ∧
    PacketKind.C3.max_size = 255 ∧ PacketKind.C4.max_size = 65535 := by
  refine ⟨fun k => ?_, rfl, rfl, rfl, rfl, rfl, rfl, rfl, rfl, rfl, rfl, rfl, rfl⟩
  cases k <;> rfl

/-- C9: the length of any packet value is its kind offset plus its payload
length; every packet reachable through the public constructors has a
plaintext kind, hence length at least 3 and is_empty false. -/
theorem claim_C9_len_nonempty :
    (∀ p : Packet, p.len = p.kind.offset + p.data.length) ∧
    (∀ p : Packet, p.Reachable → 3 ≤ p.len ∧ p.is_empty = false) := by
  refine ⟨fun p => rfl, fun p hp => ?_⟩
  have hkind : p.kind.is_encrypted = false := by
    induction hp with
    | new k c => exact PacketKind.decrypted_plain k
    | append q s hq ih => exact ih
    | parsed bytes cipher d q n c h => exact Packet.from_bytes_ex_kind h
  have h3 : 3 ≤ p.kind.offset := by
    cases hk : p.kind <;> rw [hk] at hkind <;> revert hkind <;> decide
  have hlen : 3 ≤ p.len := le_trans h3 (Nat.le_add_right _ _)
  refine ⟨hlen, ?_⟩
  simp only [Packet.is_empty, beq_eq_false_iff_ne]
  omega

/-- Witness for C9 at a concrete reachable packet. -/
theorem claim_C9_len_nonempty_witness :
    3 ≤ (Packet.new PacketKind.C3 7).len ∧ (Packet.new PacketKind.C3 7).is_empty = false :=
  claim_C9_len_nonempty.2 _ (.new _ _)

theorem from_bytes_ex_nil (cipher : Option (List Nat)) (d : Option Crypto) :
    Packet.from_bytes_ex [] cipher d = .error (.unexpectedEof "failed to fill whole buffer") := rfl

/-- C5 counterexample: a codec whose send state has no crypto scheme still
advances the send counter on encode; after one plaintext encode the
counter is 1, not the unchanged 0 the claim states. -/
theorem claim_C5_counterexample :
    ((PacketCodec.new PacketCodecState.new PacketCodecState.new).encode
      (Packet.new PacketKind.C1 0) []).map (fun r => r.2.encrypt.counter) = some 1 ∧
    ¬ ((PacketCodec.new PacketCodecState.new PacketCodecState.new).encode
      (Packet.new PacketKind.C1 0) []).map (fun r => r.2.encrypt.counter) = some 0 := by
  constructor <;> decide

/-- C5 as amended: both counters start at 0; encode advances the send
counter by one modulo 256 on every emitted frame, encrypted or not, and
leaves the receive state alone; decode leaves the codec unchanged when it
consumes a plaintext frame or when parsing fails, and advances the receive
counter by one modulo 256 when it consumes an encrypted frame with the
matching counter. -/
theorem claim_C5_counter_discipline :
    PacketCodecState.new.counter = 0 ∧
    (∀ c p out r, PacketCodec.encode c p out = some r →
      r.2.encrypt.counter = (c.encrypt.counter + 1) % 256 ∧ r.2.decrypt = c.decrypt) ∧
    (∀ c input p n, Packet.from_bytes_ex input c.decrypt.cipher c.decrypt.crypto = .ok (p, n, none) →
      (PacketCodec.decode c input).2.2 = c) ∧
    (∀ c input p n m, c.max_size = none →
      Packet.from_bytes_ex input c.decrypt.cipher c.decrypt.crypto = .ok (p, n, some m) →
      m = c.decrypt.counter →
      (PacketCodec.decode c input).2.2.decrypt.counter = (c.decrypt.counter + 1) % 256 ∧
      (PacketCodec.decode c input).2.2.encrypt = c.encrypt) ∧
    (∀ c input e, Packet.from_bytes_ex input c.decrypt.cipher c.decrypt.crypto = .error e →
      (PacketCodec.decode c input).2.2 = c) := by
  refine ⟨rfl, ?_, ?_, ?_, ?_⟩
  · intro c p out r h
    unfold PacketCodec.encode at h
    split at h
    · rename_i heq
      simp only [Option.some.injEq] at h
      subst h
      exact ⟨rfl, rfl⟩
    · exact Option.noConfusion h
  · intro c input p n h
    have hne : ¬ input.length = 0 := by
      intro h0
      rw [List.length_eq_zero] at h0
      subst h0
      rw [from_bytes_ex_nil] at h
      exact Except.noConfusion h
    unfold PacketCodec.decode
    rw [if_neg hne]
    split
    · rfl
    · rw [h]
  · intro c input p n m hmax h hm
    have hne : ¬ input.length = 0 := by
      intro h0
      rw [List.length_eq_zero] at h0
      subst h0
      rw [from_bytes_ex_nil] at h
      exact Except.noConfusion h
    unfold PacketCodec.decode
    rw [if_neg hne, hmax]
    simp only [Bool.false_eq_true, if_false]
    rw [h]
    simp only []
    rw [if_neg (by omega)]
    exact ⟨rfl, rfl⟩
  · intro c input e h
    unfold PacketCodec.decode
    split
    · rfl
    · split
      · rfl
      · rw [h]
        cases e <;> rfl

/-- Witness for C5 as amended, exercising the encode clause, the plaintext
decode clause, the encrypted decode clause and the error clause at
concrete inputs. -/
theorem claim_C5_counter_discipline_witness :
    ((⟨[0xC1, 3, 0], ⟨⟨none, none, 1⟩, PacketCodecState.new, none⟩⟩ :
        List Nat × PacketCodec).2.encrypt.counter = 1 ∧
      (⟨[0xC1, 3, 0], ⟨⟨none, none, 1⟩, PacketCodecState.new, none⟩⟩ :
        List Nat × PacketCodec).2.decrypt = PacketCodecState.new) ∧
    ((PacketCodec.new PacketCodecState.new PacketCodecState.new).decode [0xC1, 3, 0]).2.2 =
      PacketCodec.new PacketCodecState.new PacketCodecState.new ∧
    ((PacketCodec.new PacketCodecState.new ⟨none, some CLIENT, 0⟩).decode
        [0xC3, 0x0D, 0xE3, 0xB3, 0x53, 0x9A, 0x4F, 0xC8, 0x32, 0x7D, 0x04, 0x37, 0x0F]).2.2.decrypt.counter = 1 ∧
    ((PacketCodec.new PacketCodecState.new PacketCodecState.new).decode [0xC0]).2.2 =
      PacketCodec.new PacketCodecState.new PacketCodecState.new :=
  ⟨claim_C5_counter_discipline.2.1 (PacketCodec.new PacketCodecState.new PacketCodecState.new)
      (Packet.new PacketKind.C1 0) []
      ⟨[0xC1, 3, 0], ⟨⟨none, none, 1⟩, PacketCodecState.new, none⟩⟩ rfl,
    claim_C5_counter_discipline.2.2.1 (PacketCodec.new PacketCodecState.new PacketCodecState.new)
      [0xC1, 3, 0] ⟨PacketKind.C1, 0, []⟩ 3 rfl,
    (claim_C5_counter_discipline.2.2.2.1 (PacketCodec.new PacketCodecState.new ⟨none, some CLIENT, 0⟩)
      [0xC3, 0x0D, 0xE3, 0xB3, 0x53, 0x9A, 0x4F, 0xC8, 0x32, 0x7D, 0x04, 0x37, 0x0F]
      ⟨PacketKind.C1, 0xF4, [3, 0, 0]⟩ 13 0 rfl (by rfl) rfl).1,
    claim_C5_counter_discipline.2.2.2.2 (PacketCodec.new PacketCodecState.new PacketCodecState.new)
      [0xC0] (.invalidData "not a packet") rfl⟩

/-- C3: frames with opcode 0xF4 bypass the stream xor layer in both
directions, for every cipher table and every encryption or decryption
option: serialization with a cipher equals serialization with none, and a
parse that succeeds without a cipher succeeds identically with one; for
any other opcode a provided cipher whitens exactly the payload region,
forward on serialize and in reverse order on parse. -/
theorem claim_C3_opcode_exemption :
    (∀ (p : Packet) (cipher : Option (List Nat)) (enc : Option (Crypto × Nat)),
      p.code = 0xF4 → p.to_bytes_ex cipher enc = p.to_bytes_ex none enc) ∧
    (∀ (bytes : List Nat) (cipher : Option (List Nat)) (d : Option Crypto)
      (p : Packet) (n : Nat) (cnt : Option Nat),
      Packet.from_bytes_ex bytes none d = .ok (p, n, cnt) → p.code = 0xF4 →
      Packet.from_bytes_ex bytes cipher d = .ok (p, n, cnt)) ∧
    (∀ (p : Packet) (c : List Nat) (enc : Option (Crypto × Nat)), p.code ≠ 0xF4 →
      p.to_bytes_ex (some c) enc =
        Packet.to_bytes_ex
          { p with data := Packet.xorcrypt c p.kind p.code p.data (List.range p.data.length) }
          none enc) ∧
    (∀ (bytes c : List Nat) (d : Option Crypto) (p : Packet) (n : Nat) (cnt : Option Nat),
      Packet.from_bytes_ex bytes none d = .ok (p, n, cnt) → p.code ≠ 0xF4 →
      Packet.from_bytes_ex bytes (some c) d =
        .ok ({ p with data := (Packet.xorcrypt c p.kind p.code p.data
          (List.range p.data.length).reverse) }, n, cnt)) := by
  refine ⟨?_, ?_, ?_, ?_⟩
  · intro p cipher enc h
    unfold Packet.to_bytes_ex
    rw [h]
    simp
  · intro bytes cipher d p n cnt h hcode
    rw [from_bytes_ex_cipher bytes cipher d, h]
    simp [Except.map, recipher, hcode]
  · intro p c enc h
    have hlen : Packet.len
        { p with data := Packet.xorcrypt c p.kind p.code p.data (List.range p.data.length) } =
        p.len := by
      simp [Packet.len, xorcrypt_length]
    unfold Packet.to_bytes_ex
    rw [hlen]
    simp only [h, ne_eq, not_false_iff, if_true]
  · intro bytes c d p n cnt h hcode
    rw [from_bytes_ex_cipher bytes (some c) d, h]
    simp [Except.map, recipher, hcode]

/-- Witness for C3, exercising all four clauses on concrete frames: the F4
packet of the crate's C2 test, the C1 opcode A9 frame of the xor tests. -/
theorem claim_C3_opcode_exemption_witness :
    ((Packet.mk PacketKind.C1 0xF4 [3, 0, 0]).to_bytes_ex (some XOR_CIPHER) none =
      (Packet.mk PacketKind.C1 0xF4 [3, 0, 0]).to_bytes_ex none none) ∧
    (Packet.from_bytes_ex [0xC2, 0x00, 0x0B, 0xF4, 0x06, 0x00, 0x01, 0x00, 0x00, 0x05, 0x77]
        (some XOR_CIPHER) none =
      .ok (Packet.mk PacketKind.C2 0xF4 [0x06, 0x00, 0x01, 0x00, 0x00, 0x05, 0x77], 11, none)) ∧
    ((Packet.mk PacketKind.C1 0xA9 [0, 0, 1]).to_bytes_ex (some XOR_CIPHER) none =
      Packet.to_bytes_ex
        { Packet.mk PacketKind.C1 0xA9 [0, 0, 1] with
          data := Packet.xorcrypt XOR_CIPHER PacketKind.C1 0xA9 [0, 0, 1] (List.range 3) }
        none none) ∧
    (Packet.from_bytes_ex [0xC1, 0x06, 0xA9, 0x20, 0x9C, 0x2F] (some XOR_CIPHER) none =
      .ok ({ Packet.mk PacketKind.C1 0xA9 [0x20, 0x9C, 0x2F] with
          data := (Packet.xorcrypt XOR_CIPHER PacketKind.C1 0xA9 [0x20, 0x9C, 0x2F]
            (List.range 3).reverse) }, 6, none)) :=
  ⟨claim_C3_opcode_exemption.1 (Packet.mk PacketKind.C1 0xF4 [3, 0, 0]) (some XOR_CIPHER) none rfl,
    claim_C3_opcode_exemption.2.1 [0xC2, 0x00, 0x0B, 0xF4, 0x06, 0x00, 0x01, 0x00, 0x00, 0x05, 0x77]
      (some XOR_CIPHER) none (Packet.mk PacketKind.C2 0xF4 [0x06, 0x00, 0x01, 0x00, 0x00, 0x05, 0x77])
      11 none rfl rfl,
    claim_C3_opcode_exemption.2.2.1 (Packet.mk PacketKind.C1 0xA9 [0, 0, 1]) XOR_CIPHER none
      (by decide),
    claim_C3_opcode_exemption.2.2.2 [0xC1, 0x06, 0xA9, 0x20, 0x9C, 0x2F] XOR_CIPHER none
      (Packet.mk PacketKind.C1 0xA9 [0x20, 0x9C, 0x2F]) 6 none rfl (by decide)⟩

/-- C7: decode of the empty buffer returns none; when the buffer starts
with a valid kind byte but holds fewer bytes than the size field declares,
parsing reports UnexpectedEof, and decode maps any UnexpectedEof parse
outcome to none with the buffer intact (so the completed input can be
retried); on every failed parse decode consumes nothing, so bytes are only
consumed once a frame is fully parsed. -/
theorem claim_C7_partial_input :
    (∀ c : PacketCodec, c.decode [] = (.ok none, [], c)) ∧
    (∀ (input : List Nat) (k : PacketKind) (size pos : Nat),
      input ≠ [] → PacketKind.from_byte (input.getD 0 0) = some k →
      read_uint input 1 k.bytes = .ok (size, pos) → input.length < size →
      ∀ (cipher : Option (List Nat)) (d : Option Crypto),
        Packet.from_bytes_ex input cipher d = .error (.unexpectedEof "missing data")) ∧
    (∀ (c : PacketCodec) (input : List Nat) (e : String), c.max_size = none →
      Packet.from_bytes_ex input c.decrypt.cipher c.decrypt.crypto = .error (.unexpectedEof e) →
      c.decode input = (.ok none, input, c)) ∧
    (∀ (c : PacketCodec) (input : List Nat) (e : IoErr),
      Packet.from_bytes_ex input c.decrypt.cipher c.decrypt.crypto = .error e →
      (c.decode input).2.1 = input) := by
  refine ⟨fun c => rfl, ?_, ?_, ?_⟩
  · intro input k size pos hne hk hsz hlt cipher d
    have h0 : read_u8 input 0 = .ok (input.getD 0 0, 1) := by
      unfold read_u8
      rw [if_pos (List.length_pos.mpr hne)]
    unfold Packet.from_bytes_ex
    rw [h0]
    simp only [hk, hsz]
    rw [if_pos hlt]
  · intro c input e hmax h
    unfold PacketCodec.decode
    split
    · rename_i h0
      rw [List.length_eq_zero.mp h0]
    · rw [hmax]
      simp only [Bool.false_eq_true, if_false]
      rw [h]
  · intro c input e h
    unfold PacketCodec.decode
    split
    · rfl
    · split
      · rfl
      · rw [h]
        cases e <;> rfl

/-- Witness for C7 at concrete buffers: a C1 frame declaring size 10 with
only 3 bytes present, and a bad leading byte. -/
theorem claim_C7_partial_input_witness :
    (PacketCodec.new PacketCodecState.new PacketCodecState.new).decode [] =
      (.ok none, [], PacketCodec.new PacketCodecState.new PacketCodecState.new) ∧
    Packet.from_bytes_ex [0xC1, 10, 5] none none = .error (.unexpectedEof "missing data") ∧
    (PacketCodec.new PacketCodecState.new PacketCodecState.new).decode [0xC1, 10, 5] =
      (.ok none, [0xC1, 10, 5], PacketCodec.new PacketCodecState.new PacketCodecState.new) ∧
    ((PacketCodec.new PacketCodecState.new PacketCodecState.new).decode [0xC0]).2.1 = [0xC0] :=
  ⟨claim_C7_partial_input.1 _,
    claim_C7_partial_input.2.1 [0xC1, 10, 5] PacketKind.C1 10 2 (by decide) rfl rfl (by decide)
      none none,
    claim_C7_partial_input.2.2.1 (PacketCodec.new PacketCodecState.new PacketCodecState.new)
      [0xC1, 10, 5] "missing data" rfl rfl,
    claim_C7_partial_input.2.2.2 (PacketCodec.new PacketCodecState.new PacketCodecState.new)
      [0xC0] (.invalidData "not a packet") rfl⟩

/-- C10: when decode fails with the counter mismatch error on an encrypted
frame, the frame bytes have already been removed from the input buffer,
while the codec state, in particular the receive counter, is unchanged. -/
theorem claim_C10_mismatch_consumes :
    ∀ (c : PacketCodec) (input : List Nat) (p : Packet) (n m : Nat), c.max_size = none →
      Packet.from_bytes_ex input c.decrypt.cipher c.decrypt.crypto = .ok (p, n, some m) →
      m ≠ c.decrypt.counter →
      c.decode input = (.error (.otherErr ("invalid decryption counter " ++ toString m ++
        ", expected " ++ toString c.decrypt.counter)), input.drop n, c) := by
  intro c input p n m hmax h hm
  have hne : ¬ input.length = 0 := by
    intro h0
    rw [List.length_eq_zero] at h0
    subst h0
    rw [from_bytes_ex_nil] at h
    exact Except.noConfusion h
  unfold PacketCodec.decode
  rw [if_neg hne, hmax]
  simp only [Bool.false_eq_true, if_false]
  rw [h]
  simp only []
  rw [if_pos (fun hcc => hm hcc.symm)]

/-- Witness for C10: the CLIENT encrypted frame with embedded counter 0
presented to a codec whose receive counter is 5. -/
theorem claim_C10_mismatch_consumes_witness :
    (PacketCodec.new PacketCodecState.new ⟨none, some CLIENT, 5⟩).decode
        [0xC3, 0x0D, 0xE3, 0xB3, 0x53, 0x9A, 0x4F, 0xC8, 0x32, 0x7D, 0x04, 0x37, 0x0F] =
      (.error (.otherErr ("invalid decryption counter " ++ toString 0 ++
          ", expected " ++ toString 5)),
        List.drop 13 [0xC3, 0x0D, 0xE3, 0xB3, 0x53, 0x9A, 0x4F, 0xC8, 0x32, 0x7D, 0x04, 0x37, 0x0F],
        PacketCodec.new PacketCodecState.new ⟨none, some CLIENT, 5⟩) :=
  claim_C10_mismatch_consumes (PacketCodec.new PacketCodecState.new ⟨none, some CLIENT, 5⟩)
    [0xC3, 0x0D, 0xE3, 0xB3, 0x53, 0x9A, 0x4F, 0xC8, 0x32, 0x7D, 0x04, 0x37, 0x0F]
    (Packet.mk PacketKind.C1 0xF4 [3, 0, 0]) 13 0 rfl (by rfl) (by decide)

/-- C6 counterexample: on the all zero 54 byte blob with xor cipher
[0, 1, 2, 3] and flag rows [true, false, true, true] (three set rows, so
every read stays inside the 54 byte blob, exactly as for the built-in
schemes), the loader produces word 1 (row 0, column 1) equal to
0 xor 1 = 1, while the claimed formula with the XOR word of the row gives
0 xor 0 = 0. -/
theorem claim_C6_counterexample :
    (load_keys (List.replicate 54 0) [0, 1, 2, 3] [true, false, true, true]).getD 1 0 ≠
      loader_word_by_row (List.replicate 54 0) [0, 1, 2, 3] [true, false, true, true] 0 1 := by
  decide

set_option maxHeartbeats 3200000 in
/-- C6 as amended: for a blob long enough that every set flag row's four
word reads stay inside it (on the crate's 54 byte blobs: at most three set
rows), the loader skips the first 6 bytes, produces a length 16 vector
addressed as table[row * 4 + col], and each word of a set flag row is the
next little endian 32 bit value of the blob xored with the XOR word of its
COLUMN (the claim said the row), each word of an unset row zero. -/
theorem claim_C6_loader :
    ∀ (keys xor : List Nat) (f0 f1 f2 f3 : Bool) (r c : Nat),
      6 + 16 * (([f0, f1, f2, f3].filter id).length) ≤ keys.length →
      r < 4 → c < 4 →
      (load_keys keys xor [f0, f1, f2, f3]).length = 16 ∧
      (load_keys keys xor [f0, f1, f2, f3]).getD (r * 4 + c) 0 =
        loader_word_by_col keys xor [f0, f1, f2, f3] r c := by
  intro keys xor f0 f1 f2 f3 r c hin hr hc
  constructor
  · cases f0 <;> cases f1 <;> cases f2 <;> cases f3 <;>
      simp [load_keys, load_rows, load_row]
  · cases f0 <;> cases f1 <;> cases f2 <;> cases f3 <;>
      simp only [load_keys, load_rows, load_row, List.cons_append, List.nil_append] <;>
      interval_cases r <;> interval_cases c <;>
      simp [loader_word_by_col, set_rows_before]

/-- Witness for C6 as amended at a concrete blob, cipher and flag vector. -/
theorem claim_C6_loader_witness :
    (load_keys (List.replicate 54 0) [0, 1, 2, 3] [true, false, true, true]).length = 16 ∧
    (load_keys (List.replicate 54 0) [0, 1, 2, 3] [true, false, true, true]).getD (2 * 4 + 1) 0 =
      loader_word_by_col (List.replicate 54 0) [0, 1, 2, 3] [true, false, true, true] 2 1 :=
  claim_C6_loader (List.replicate 54 0) [0, 1, 2, 3] true false true true 2 1
    (by decide) (by decide) (by decide)

/-- C2: the CLIENT scheme encrypts the five byte buffer 00 F4 03 00 00 to
the stated eleven byte ciphertext, and decrypts that ciphertext back to
the same five bytes. -/
theorem claim_C2_client_vector :
    CLIENT.encrypt [0x00, 0xF4, 0x03, 0x00, 0x00] =
      [0xE3, 0xB3, 0x53, 0x9A, 0x4F, 0xC8, 0x32, 0x7D, 0x04, 0x37, 0x0F] ∧
    CLIENT.decrypt [0xE3, 0xB3, 0x53, 0x9A, 0x4F, 0xC8, 0x32, 0x7D, 0x04, 0x37, 0x0F] =
      .ok [0x00, 0xF4, 0x03, 0x00, 0x00] :=
  ⟨by decide, by rfl⟩


theorem lor_shr (x y n : Nat) : (x ||| y) >>> n = x >>> n ||| y >>> n := by
  apply Nat.eq_of_testBit_eq
  intro i
  simp [Nat.testBit_lor, Nat.testBit_shiftRight]

theorem lor_shl (x y n : Nat) : (x ||| y) <<< n = x <<< n ||| y <<< n := by
  apply Nat.eq_of_testBit_eq
  intro i
  simp only [Nat.testBit_lor, Nat.testBit_shiftLeft]
  by_cases h : i ≥ n <;> simp [h]

theorem lor_mod256 (x y : Nat) : (x ||| y) % 256 = x % 256 ||| y % 256 := by
  apply Nat.eq_of_testBit_eq
  intro i
  have h : (256 : Nat) = 2 ^ 8 := by norm_num
  simp only [h, Nat.testBit_lor, Nat.testBit_mod_two_pow]
  by_cases hi : i < 8 <;> simp [hi]

theorem lor_land (x y m : Nat) : (x ||| y) &&& m = (x &&& m) ||| (y &&& m) := by
  apply Nat.eq_of_testBit_eq
  intro i
  simp only [Nat.testBit_lor, Nat.testBit_land]
  by_cases h : m.testBit i <;> simp [h]

theorem shl2_mod (x : Nat) : x <<< 2 % 256 = 4 * (x % 64) := by
  rw [Nat.shiftLeft_eq]
  omega

theorem shl4_mod (x : Nat) : x <<< 4 % 256 = 16 * (x % 16) := by
  rw [Nat.shiftLeft_eq]
  omega

theorem shl6_mod (x : Nat) : x <<< 6 % 256 = 64 * (x % 4) := by
  rw [Nat.shiftLeft_eq]
  omega

theorem shr2_div (x : Nat) : x >>> 2 = x / 4 := by
  simp [Nat.shiftRight_eq_div_pow]

theorem shr4_div (x : Nat) : x >>> 4 = x / 16 := by
  simp [Nat.shiftRight_eq_div_pow]

theorem shr6_div (x : Nat) : x >>> 6 = x / 64 := by
  simp [Nat.shiftRight_eq_div_pow]

theorem mod_case_apply {k : Nat} (P : Nat → Prop) (h : ∀ m, m < k → P m) (x : Nat)
    (hk : 0 < k) : P (x % k) := h _ (Nat.mod_lt x hk)

theorem and192_of_mul64 (x : Nat) : (64 * (x % 4)) &&& 192 = 64 * (x % 4) :=
  mod_case_apply (fun m => (64 * m) &&& 192 = 64 * m) (by decide) x (by norm_num)

theorem and192_of_div4 (x : Nat) (h : x < 256) : (x / 4) &&& 192 = 0 := by
  have : x / 4 < 64 := by omega
  exact (fun m hm => by revert hm; revert m; decide : ∀ m, m < 64 → m &&& 192 = 0) _ this


theorem mul64_div64 (x : Nat) : 64 * x / 64 = x := by omega

theorem mul64_div4 (x : Nat) : 64 * x / 4 = 16 * x := by omega

theorem mul4_mul16_div64 (x : Nat) : 4 * (16 * x) / 64 = x := by omega

theorem mul4_mul16_mod64 (x : Nat) : 4 * (16 * x) % 64 = 0 := by omega

theorem div4_div64 (x : Nat) (h : x < 256) : x / 4 / 64 = 0 := by omega

theorem div4_mod64 (x : Nat) (h : x < 256) : x / 4 % 64 = x / 4 := by omega

theorem and192_of_mul16 (x : Nat) : (16 * (x % 4)) &&& 192 = 0 :=
  mod_case_apply (fun m => (16 * m) &&& 192 = 0) (by decide) x (by norm_num)

theorem and192_of_div16 (x : Nat) (h : x < 256) : (x / 16) &&& 192 = 0 := by
  have : x / 16 < 16 := by omega
  exact (fun m hm => by revert hm; revert m; decide : ∀ m, m < 16 → m &&& 192 = 0) _ this

theorem and240_of_mul64 (x : Nat) : (64 * (x % 4)) &&& 240 = 64 * (x % 4) :=
  mod_case_apply (fun m => (64 * m) &&& 240 = 64 * m) (by decide) x (by norm_num)

theorem and240_of_mul16 (x : Nat) : (16 * (x % 4)) &&& 240 = 16 * (x % 4) :=
  mod_case_apply (fun m => (16 * m) &&& 240 = 16 * m) (by decide) x (by norm_num)

theorem and240_of_div16 (x : Nat) (h : x < 256) : (x / 16) &&& 240 = 0 := by
  have : x / 16 < 16 := by omega
  exact (fun m hm => by revert hm; revert m; decide : ∀ m, m < 16 → m &&& 240 = 0) _ this

theorem mul16_mod64 (x : Nat) : 16 * (x % 4) % 64 = 16 * (x % 4) :=
  mod_case_apply (fun m => 16 * m % 64 = 16 * m) (by decide) x (by norm_num)

theorem lor_low2 (x : Nat) (h : x < 256) : x % 4 ||| 4 * (x / 4) = x := by
  have := (fun m hm => by revert hm; revert m; decide :
    ∀ m, m < 256 → m % 4 ||| 4 * (m / 4) = m)
  exact this x h


theorem mul64_mod16 (x : Nat) : 64 * x % 16 = 0 := by omega

theorem mul16_mod16 (x : Nat) : 16 * x % 16 = 0 := by omega

theorem mul16_div16 (x : Nat) : 16 * x / 16 = x := by omega

theorem mul64_div16 (x : Nat) : 64 * x / 16 = 4 * x := by omega

theorem mul4_div4 (x : Nat) : 4 * x / 4 = x := by omega

theorem mul4_mod4 (x : Nat) : 4 * x % 4 = 0 := by omega

theorem mul16_mod4 (x : Nat) : 16 * x % 4 = 0 := by omega

theorem mod4_mod4 (x : Nat) : x % 4 % 4 = x % 4 := by omega

theorem mul4_mod16 (x : Nat) : 4 * (x % 4) % 16 = 4 * (x % 4) := by omega

theorem mul16_mul4_div64 (x : Nat) : 16 * (4 * x) / 64 = x := by omega

theorem mul16_mul4_mod64 (x : Nat) : 16 * (4 * x) % 64 = 0 := by omega

theorem div16_mod16 (x : Nat) (h : x < 256) : x / 16 % 16 = x / 16 := by omega

theorem div16_div16 (x : Nat) (h : x < 256) : x / 16 / 16 = 0 := by omega

theorem div64_div4 (x : Nat) (h : x < 256) : x / 64 / 4 = 0 := by omega

theorem div64_mod4 (x : Nat) (h : x < 256) : x / 64 % 4 = x / 64 := by omega

theorem and240_of_mul16b (x : Nat) : (16 * (x % 16)) &&& 240 = 16 * (x % 16) :=
  mod_case_apply (fun m => (16 * m) &&& 240 = 16 * m) (by decide) x (by norm_num)

theorem and240_of_mul4 (x : Nat) : (4 * (x % 4)) &&& 240 = 0 :=
  mod_case_apply (fun m => (4 * m) &&& 240 = 0) (by decide) x (by norm_num)

theorem and240_of_div64 (x : Nat) (h : x < 256) : (x / 64) &&& 240 = 0 := by
  have : x / 64 < 4 := by omega
  exact (fun m hm => by revert hm; revert m; decide : ∀ m, m < 4 → m &&& 240 = 0) _ this

theorem and252_of_mul16 (x : Nat) : (16 * (x % 16)) &&& 252 = 16 * (x % 16) :=
  mod_case_apply (fun m => (16 * m) &&& 252 = 16 * m) (by decide) x (by norm_num)

theorem and252_of_mul4 (x : Nat) : (4 * (x % 4)) &&& 252 = 4 * (x % 4) :=
  mod_case_apply (fun m => (4 * m) &&& 252 = 4 * m) (by decide) x (by norm_num)

theorem and252_of_mul4b (x : Nat) : (4 * (x % 64)) &&& 252 = 4 * (x % 64) :=
  mod_case_apply (fun m => (4 * m) &&& 252 = 4 * m) (by decide) x (by norm_num)

theorem and252_of_div64 (x : Nat) (h : x < 256) : (x / 64) &&& 252 = 0 := by
  have : x / 64 < 4 := by omega
  exact (fun m hm => by revert hm; revert m; decide : ∀ m, m < 4 → m &&& 252 = 0) _ this

theorem and252_of_mod4 (x : Nat) : (x % 4) &&& 252 = 0 :=
  mod_case_apply (fun m => m &&& 252 = 0) (by decide) x (by norm_num)

theorem lor_low4 (x : Nat) (h : x < 256) : x % 16 ||| 16 * (x / 16) = x := by
  have := (fun m hm => by revert hm; revert m; decide :
    ∀ m, m < 256 → m % 16 ||| 16 * (m / 16) = m)
  exact this x h

theorem lor_low6 (x : Nat) (h : x < 256) : x % 64 ||| 64 * (x / 64) = x := by
  have := (fun m hm => by revert hm; revert m; decide :
    ∀ m, m < 256 → m % 64 ||| 64 * (m / 64) = m)
  exact this x h

set_option maxHeartbeats 1000000 in
theorem pack_unpack_core (t0 t1 a0 b0 c0 a1 b1 c1 a2 b2 c2 a3 b3 c3 : Nat)
    (ht0 : t0 < 256) (ht1 : t1 < 256)
    (ha0 : a0 < 256) (hb0 : b0 < 256) (hc0 : c0 < 4)
    (ha1 : a1 < 256) (hb1 : b1 < 256) (hc1 : c1 < 4)
    (ha2 : a2 < 256) (hb2 : b2 < 256) (hc2 : c2 < 4)
    (ha3 : a3 < 256) (hb3 : b3 < 256) (hc3 : c3 < 4) :
    unpack_words (hash_buffer (pack_words (List.replicate 11 0) 0
      [a0 + 256 * b0 + 65536 * c0, a1 + 256 * b1 + 65536 * c1,
       a2 + 256 * b2 + 65536 * c2, a3 + 256 * b3 + 65536 * c3]) 72
      [t0, t1, 0, 0] 0 16) 0 4 =
      [a0 + 256 * b0 + 65536 * c0, a1 + 256 * b1 + 65536 * c1,
       a2 + 256 * b2 + 65536 * c2, a3 + 256 * b3 + 65536 * c3] := by
  simp [unpack_words, pack_words, hash_buffer, init_buffer, shift_bytes,
    shift_bytes_pos, shift_bytes_neg, or_into, le_bytes, le32]
  have e0 : (a0 + 256 * b0 + 65536 * c0) % 256 = a0 := by omega
  have e1 : (a0 + 256 * b0 + 65536 * c0) / 256 % 256 = b0 := by omega
  have e2 : (a0 + 256 * b0 + 65536 * c0) / 65536 % 256 = c0 := by omega
  have e3 : (a1 + 256 * b1 + 65536 * c1) % 256 = a1 := by omega
  have e4 : (a1 + 256 * b1 + 65536 * c1) / 256 % 256 = b1 := by omega
  have e5 : (a1 + 256 * b1 + 65536 * c1) / 65536 % 256 = c1 := by omega
  have e6 : (a2 + 256 * b2 + 65536 * c2) % 256 = a2 := by omega
  have e7 : (a2 + 256 * b2 + 65536 * c2) / 256 % 256 = b2 := by omega
  have e8 : (a2 + 256 * b2 + 65536 * c2) / 65536 % 256 = c2 := by omega
  have e9 : (a3 + 256 * b3 + 65536 * c3) % 256 = a3 := by omega
  have e10 : (a3 + 256 * b3 + 65536 * c3) / 256 % 256 = b3 := by omega
  have e11 : (a3 + 256 * b3 + 65536 * c3) / 65536 % 256 = c3 := by omega
  rw [e0, e1, e2, e3, e4, e5, e6, e7, e8, e9, e10, e11]
  refine ⟨?_, ?_, ?_, ?_⟩
  · simp only [lor_shr, lor_shl, lor_mod256, lor_land, Nat.zero_or, Nat.or_zero]
    simp only [shl2_mod, shl4_mod, shl6_mod, shr2_div, shr4_div, shr6_div]
    simp only [and192_of_mul64, and192_of_div4 _ ha1]
    simp only [Nat.zero_div, Nat.zero_mod, Nat.mul_mod_right, Nat.mul_zero,
      Nat.or_zero, Nat.zero_or]
    omega
  · simp only [lor_shr, lor_shl, lor_mod256, lor_land, Nat.zero_or, Nat.or_zero]
    simp only [shl2_mod, shl4_mod, shl6_mod, shr2_div, shr4_div, shr6_div]
    simp only [and192_of_mul64, mul64_div4, and192_of_mul16, and192_of_div16 _ ha2,
      and240_of_mul64, and240_of_mul16, and240_of_div16 _ ha2,
      div4_div64 _ hb1, div4_mod64 _ ha1, div4_mod64 _ hb1,
      Nat.mul_mod_right, mul16_mod64, mul64_div64, mul4_mul16_div64, mul4_mul16_mod64,
      Nat.zero_div, Nat.zero_mod, Nat.mul_zero, Nat.or_zero, Nat.zero_or]
    rw [lor_low2 _ ha1, lor_low2 _ hb1]
    omega
  · simp only [lor_shr, lor_shl, lor_mod256, lor_land, Nat.zero_or, Nat.or_zero]
    simp only [shl2_mod, shl4_mod, shl6_mod, shr2_div, shr4_div, shr6_div]
    simp only [mul64_mod16, mul16_mod16, mul16_div16, mul64_div16, mul64_div4,
      div16_mod16 _ ha2, div16_mod16 _ hb2, div16_div16 _ hb2,
      and240_of_mul16b, and240_of_mul4, and240_of_div64 _ ha3,
      and252_of_mul16, and252_of_mul4, and252_of_div64 _ ha3,
      mul4_mod16, mul16_mul4_div64, mul16_mul4_mod64,
      Nat.mul_mod_right, Nat.zero_div, Nat.zero_mod, Nat.mul_zero,
      Nat.or_zero, Nat.zero_or]
    rw [lor_low4 _ ha2, lor_low4 _ hb2]
    omega
  · simp only [lor_shr, lor_shl, lor_mod256, lor_land, Nat.zero_or, Nat.or_zero]
    simp only [shl2_mod, shl4_mod, shl6_mod, shr2_div, shr4_div, shr6_div]
    simp only [mul16_mod4, mul4_mod4, mul4_div4, mul64_div16, mul64_div64, mod4_mod4,
      div64_mod4 _ ha3, div64_mod4 _ hb3, div64_div4 _ hb3,
      and252_of_mul4b, and252_of_mod4,
      Nat.mul_mod_right, Nat.zero_div, Nat.zero_mod, Nat.mul_zero,
      Nat.or_zero, Nat.zero_or]
    rw [lor_low6 _ ha3, lor_low6 _ hb3]
    omega


theorem pack_unpack_words (f0 f1 f2 f3 t0 t1 : Nat)
    (h0 : f0 < 262144) (h1 : f1 < 262144) (h2 : f2 < 262144) (h3 : f3 < 262144)
    (ht0 : t0 < 256) (ht1 : t1 < 256) :
    unpack_words (hash_buffer (pack_words (List.replicate 11 0) 0 [f0, f1, f2, f3]) 72
      [t0, t1, 0, 0] 0 16) 0 4 = [f0, f1, f2, f3] := by
  obtain ⟨a0, b0, c0, ha0, hb0, hc0, rfl⟩ :
      ∃ a b c, a < 256 ∧ b < 256 ∧ c < 4 ∧ f0 = a + 256 * b + 65536 * c :=
    ⟨f0 % 256, f0 / 256 % 256, f0 / 65536, by omega, by omega, by omega, by omega⟩
  obtain ⟨a1, b1, c1, ha1, hb1, hc1, rfl⟩ :
      ∃ a b c, a < 256 ∧ b < 256 ∧ c < 4 ∧ f1 = a + 256 * b + 65536 * c :=
    ⟨f1 % 256, f1 / 256 % 256, f1 / 65536, by omega, by omega, by omega, by omega⟩
  obtain ⟨a2, b2, c2, ha2, hb2, hc2, rfl⟩ :
      ∃ a b c, a < 256 ∧ b < 256 ∧ c < 4 ∧ f2 = a + 256 * b + 65536 * c :=
    ⟨f2 % 256, f2 / 256 % 256, f2 / 65536, by omega, by omega, by omega, by omega⟩
  obtain ⟨a3, b3, c3, ha3, hb3, hc3, rfl⟩ :
      ∃ a b c, a < 256 ∧ b < 256 ∧ c < 4 ∧ f3 = a + 256 * b + 65536 * c :=
    ⟨f3 % 256, f3 / 256 % 256, f3 / 65536, by omega, by omega, by omega, by omega⟩
  exact pack_unpack_core t0 t1 a0 b0 c0 a1 b1 c1 a2 b2 c2 a3 b3 c3 ht0 ht1
    ha0 hb0 hc0 ha1 hb1 hc1 ha2 hb2 hc2 ha3 hb3 hc3

set_option maxHeartbeats 1000000 in
theorem trailer_extract (f0 f1 f2 f3 t0 t1 : Nat) :
    hash_buffer (List.replicate 4 0) 0 (hash_buffer (pack_words (List.replicate 11 0) 0
      [f0, f1, f2, f3]) 72 [t0, t1, 0, 0] 0 16) 72 16 = [t0, t1, 0, 0] := by
  simp [pack_words, hash_buffer, init_buffer, shift_bytes,
    shift_bytes_pos, shift_bytes_neg, or_into, le_bytes]

theorem list_eight (l : List Nat) (h : l.length = 8) :
    ∃ x0 x1 x2 x3 x4 x5 x6 x7, l = [x0, x1, x2, x3, x4, x5, x6, x7] := by
  rcases l with _ | ⟨x0, l⟩
  · simp at h
  rcases l with _ | ⟨x1, l⟩
  · simp at h
  rcases l with _ | ⟨x2, l⟩
  · simp at h
  rcases l with _ | ⟨x3, l⟩
  · simp at h
  rcases l with _ | ⟨x4, l⟩
  · simp at h
  rcases l with _ | ⟨x5, l⟩
  · simp at h
  rcases l with _ | ⟨x6, l⟩
  · simp at h
  rcases l with _ | ⟨x7, l⟩
  · simp at h
  have hl : l = [] := by
    simp only [List.length_cons] at h
    exact List.eq_nil_of_length_eq_zero (by omega)
  exact ⟨x0, x1, x2, x3, x4, x5, x6, x7, by rw [hl]⟩

theorem xor_lt_65536 {x y : Nat} (hx : x < 65536) (hy : y < 65536) : x ^^^ y < 65536 := by
  have h : (65536 : Nat) = 2 ^ 16 := by norm_num
  rw [h] at hx hy ⊢
  exact Nat.xor_lt_two_pow hx hy

theorem xor_lt_262144 {x y : Nat} (hx : x < 262144) (hy : y < 262144) : x ^^^ y < 262144 := by
  have h : (262144 : Nat) = 2 ^ 18 := by norm_num
  rw [h] at hx hy ⊢
  exact Nat.xor_lt_two_pow hx hy

theorem land_lt_65536 (x : Nat) : x &&& 65535 < 65536 :=
  Nat.lt_succ_of_le (Nat.and_le_right)

theorem mod_inverse_step (M e d K v crypt : Nat)
    (hM1 : 65535 < M) (hM2 : M ≤ 262144) (he : e ≤ 65535) (hd : d ≤ 16383)
    (hinv : e * d % M = 1) (hv : v < 65536) (hK : K < 65536) (hcrypt : crypt < 65536) :
    (d * ((v ^^^ (K ^^^ crypt)) * e % 4294967296 % M) % 4294967296 % M) ^^^ (K ^^^ crypt)
      = v := by
  have hKc : K ^^^ crypt < 65536 := xor_lt_65536 hK hcrypt
  have hw16 : v ^^^ (K ^^^ crypt) < 65536 := xor_lt_65536 hv hKc
  set w := v ^^^ (K ^^^ crypt) with hw
  have h1 : w * e < 4294967296 := by nlinarith
  rw [Nat.mod_eq_of_lt h1]
  have h2 : d * (w * e % M) < 4294967296 := by
    have := Nat.mod_lt (w * e) (show 0 < M by omega)
    nlinarith
  rw [Nat.mod_eq_of_lt h2]
  have h3 : d * (w * e % M) % M = w % M := by
    have step1 : d * (w * e % M) ≡ d * (w * e) [MOD M] :=
      (Nat.mod_modEq (w * e) M).mul_left d
    have step2 : d * (w * e) = w * (e * d) := by ring
    have step3 : w * (e * d) ≡ w * 1 [MOD M] := by
      refine Nat.ModEq.mul_left w ?_
      show e * d % M = 1 % M
      rw [hinv, Nat.mod_eq_of_lt (show (1 : Nat) < M by omega)]
    calc d * (w * e % M) % M = d * (w * e) % M := step1
      _ = w * (e * d) % M := by rw [step2]
      _ = w * 1 % M := step3
      _ = w % M := by rw [Nat.mul_one]
  rw [h3, Nat.mod_eq_of_lt (show w < M by omega)]
  exact Nat.xor_cancel_right _ _


theorem enc_chain_eq (keys : List Nat) (m0 m1 m2 m3 : Nat) :
    enc_chain keys 0 3 [m0, m1, m2, m3] =
      [m0 ^^^ (keys.getD 12 0 ^^^ (m1 &&& 65535)),
       m1 ^^^ (keys.getD 13 0 ^^^ (m2 &&& 65535)),
       m2 ^^^ (keys.getD 14 0 ^^^ (m3 &&& 65535)), m3] := by
  simp [enc_chain, Nat.reduceAdd]

theorem foldl_xor_lt (l : List Nat) (init : Nat) (hinit : init < 256)
    (hl : ∀ b ∈ l, b < 256) : l.foldl (fun x v => x ^^^ v) init < 256 := by
  induction l generalizing init with
  | nil => exact hinit
  | cons b t ih =>
    rw [List.foldl_cons]
    refine ih _ ?_ (fun c hc => hl c (List.mem_cons_of_mem _ hc))
    have hb : b < 256 := hl b (List.mem_cons_self _ _)
    have h : (256 : Nat) = 2 ^ 8 := by norm_num
    rw [h] at hinit hb ⊢
    exact Nat.xor_lt_two_pow hinit hb

theorem decode_of_mids (ek dk : List Nat) (m0 m1 m2 m3 t0 t1 : Nat)
    (hK0 : dk.getD 12 0 = ek.getD 12 0) (hK1 : dk.getD 13 0 = ek.getD 13 0)
    (hK2 : dk.getD 14 0 = ek.getD 14 0) (hK3 : dk.getD 15 0 = ek.getD 15 0)
    (hKa : ek.getD 12 0 < 65536) (hKb : ek.getD 13 0 < 65536)
    (hKc : ek.getD 14 0 < 65536) (hKd : ek.getD 15 0 < 65536)
    (hma : m0 < 262144) (hmb : m1 < 262144) (hmc : m2 < 262144) (hmd : m3 < 262144)
    (ht0 : t0 < 256) (ht1 : t1 < 256) :
    dec_chain dk 3 (unpack_words (hash_buffer (pack_words (List.replicate 11 0) 0
      (enc_chain ek 0 3 [m0, m1, m2, m3])) 72 [t0, t1, 0, 0] 0 16) 0 4) =
      [m0, m1, m2, m3] := by
  rw [enc_chain_eq]
  have h65536 : (65536 : Nat) ≤ 262144 := by norm_num
  rw [pack_unpack_words _ _ _ _ t0 t1
    (xor_lt_262144 hma (xor_lt_262144 (by omega) (by
      have := land_lt_65536 m1
      omega)))
    (xor_lt_262144 hmb (xor_lt_262144 (by omega) (by
      have := land_lt_65536 m2
      omega)))
    (xor_lt_262144 hmc (xor_lt_262144 (by omega) (by
      have := land_lt_65536 m3
      omega)))
    hmd ht0 ht1]
  simp only [dec_chain, Nat.reduceAdd, List.getD_cons_zero, List.getD_cons_succ,
    List.set_cons_zero, List.set_cons_succ]
  rw [hK2, Nat.xor_cancel_right]
  rw [hK1, Nat.xor_cancel_right]
  rw [hK0, Nat.xor_cancel_right]


theorem xor_lt_256 {x y : Nat} (hx : x < 256) (hy : y < 256) : x ^^^ y < 256 := by
  have h : (256 : Nat) = 2 ^ 8 := by norm_num
  rw [h] at hx hy ⊢
  exact Nat.xor_lt_two_pow hx hy

theorem xor_juggle (x L : Nat) : ((x ^^^ L) ^^^ 61) ^^^ (x ^^^ 61) = L := by
  rw [Nat.xor_comm x L, Nat.xor_assoc L x 61]
  exact Nat.xor_cancel_right _ _

theorem enc_words_spec (keys inp : List Nat) :
    ∃ m0 m1 m2 m3,
      enc_words keys inp 0 0 4 = [m0, m1, m2, m3] ∧
      m0 = (le16 inp 0 ^^^ (keys.getD 12 0 ^^^ 0)) * keys.getD 4 0 % 4294967296 %
        keys.getD 0 0 ∧
      m1 = (le16 inp 1 ^^^ (keys.getD 13 0 ^^^ (m0 &&& 65535))) * keys.getD 5 0 % 4294967296 %
        keys.getD 1 0 ∧
      m2 = (le16 inp 2 ^^^ (keys.getD 14 0 ^^^ (m1 &&& 65535))) * keys.getD 6 0 % 4294967296 %
        keys.getD 2 0 ∧
      m3 = (le16 inp 3 ^^^ (keys.getD 15 0 ^^^ (m2 &&& 65535))) * keys.getD 7 0 % 4294967296 %
        keys.getD 3 0 := by
  refine ⟨_, _, _, _, ?_, rfl, rfl, rfl, rfl⟩
  simp [enc_words, Nat.reduceAdd]

set_option maxHeartbeats 2000000 in
theorem convert_roundtrip (ek dk : List Nat) (slice : List Nat)
    (hwf : ∀ i, i < 4 → 65535 < ek.getD i 0 ∧ ek.getD i 0 ≤ 262144 ∧
      dk.getD i 0 = ek.getD i 0 ∧ ek.getD (4+i) 0 ≤ 65535 ∧ dk.getD (8+i) 0 ≤ 16383 ∧
      ek.getD (4+i) 0 * dk.getD (8+i) 0 % ek.getD i 0 = 1 ∧
      dk.getD (12+i) 0 = ek.getD (12+i) 0 ∧ ek.getD (12+i) 0 < 65536)
    (hlen : slice.length ≤ 8) (hbytes : ∀ b ∈ slice, b < 256) :
    convert_11to8_bytes dk (convert_8to11_bytes ek slice) =
      .ok (slice.length, slice_with_padding slice) := by
  obtain ⟨hM0, hM0b, hdk0, he0, hd0, hinv0, hdk12, hK0⟩ := hwf 0 (by norm_num)
  obtain ⟨hM1, hM1b, hdk1, he1, hd1, hinv1, hdk13, hK1⟩ := hwf 1 (by norm_num)
  obtain ⟨hM2, hM2b, hdk2, he2, hd2, hinv2, hdk14, hK2⟩ := hwf 2 (by norm_num)
  obtain ⟨hM3, hM3b, hdk3, he3, hd3, hinv3, hdk15, hK3⟩ := hwf 3 (by norm_num)
  have hdk12 : dk.getD 12 0 = ek.getD 12 0 := hdk12
  have hdk13 : dk.getD 13 0 = ek.getD 13 0 := hdk13
  have hdk14 : dk.getD 14 0 = ek.getD 14 0 := hdk14
  have hdk15 : dk.getD 15 0 = ek.getD 15 0 := hdk15
  have he0 : ek.getD 4 0 ≤ 65535 := he0
  have he1 : ek.getD 5 0 ≤ 65535 := he1
  have he2 : ek.getD 6 0 ≤ 65535 := he2
  have he3 : ek.getD 7 0 ≤ 65535 := he3
  have hd0 : dk.getD 8 0 ≤ 16383 := hd0
  have hd1 : dk.getD 9 0 ≤ 16383 := hd1
  have hd2 : dk.getD 10 0 ≤ 16383 := hd2
  have hd3 : dk.getD 11 0 ≤ 16383 := hd3
  have hinv0 : ek.getD 4 0 * dk.getD 8 0 % ek.getD 0 0 = 1 := hinv0
  have hinv1 : ek.getD 5 0 * dk.getD 9 0 % ek.getD 1 0 = 1 := hinv1
  have hinv2 : ek.getD 6 0 * dk.getD 10 0 % ek.getD 2 0 = 1 := hinv2
  have hinv3 : ek.getD 7 0 * dk.getD 11 0 % ek.getD 3 0 = 1 := hinv3
  have hK0 : ek.getD 12 0 < 65536 := hK0
  have hK1 : ek.getD 13 0 < 65536 := hK1
  have hK2 : ek.getD 14 0 < 65536 := hK2
  have hK3 : ek.getD 15 0 < 65536 := hK3
  have hplen : (slice_with_padding slice).length = 8 := by
    simp [slice_with_padding]
    omega
  obtain ⟨x0, x1, x2, x3, x4, x5, x6, x7, hx⟩ := list_eight _ hplen
  have hxmem : ∀ b ∈ slice_with_padding slice, b < 256 := by
    intro b hb
    rcases List.mem_append.mp hb with h | h
    · exact hbytes b h
    · rw [List.eq_of_mem_replicate h]
      norm_num
  rw [hx] at hxmem
  have hb0 : x0 < 256 := hxmem _ (by simp)
  have hb1 : x1 < 256 := hxmem _ (by simp)
  have hb2 : x2 < 256 := hxmem _ (by simp)
  have hb3 : x3 < 256 := hxmem _ (by simp)
  have hb4 : x4 < 256 := hxmem _ (by simp)
  have hb5 : x5 < 256 := hxmem _ (by simp)
  have hb6 : x6 < 256 := hxmem _ (by simp)
  have hb7 : x7 < 256 := hxmem _ (by simp)
  obtain ⟨m0, m1, m2, m3, hew, hm0, hm1, hm2, hm3⟩ :=
    enc_words_spec ek [x0, x1, x2, x3, x4, x5, x6, x7]
  have hmlt0 : m0 < 262144 := by rw [hm0]; have := Nat.mod_lt ((le16 [x0, x1, x2, x3, x4, x5, x6, x7] 0 ^^^ (ek.getD 12 0 ^^^ 0)) * ek.getD 4 0 % 4294967296) (show 0 < ek.getD 0 0 by omega); omega
  have hmlt1 : m1 < 262144 := by rw [hm1]; have := Nat.mod_lt ((le16 [x0, x1, x2, x3, x4, x5, x6, x7] 1 ^^^ (ek.getD 13 0 ^^^ (m0 &&& 65535))) * ek.getD 5 0 % 4294967296) (show 0 < ek.getD 1 0 by omega); omega
  have hmlt2 : m2 < 262144 := by rw [hm2]; have := Nat.mod_lt ((le16 [x0, x1, x2, x3, x4, x5, x6, x7] 2 ^^^ (ek.getD 14 0 ^^^ (m1 &&& 65535))) * ek.getD 6 0 % 4294967296) (show 0 < ek.getD 2 0 by omega); omega
  have hmlt3 : m3 < 262144 := by rw [hm3]; have := Nat.mod_lt ((le16 [x0, x1, x2, x3, x4, x5, x6, x7] 3 ^^^ (ek.getD 15 0 ^^^ (m2 &&& 65535))) * ek.getD 7 0 % 4294967296) (show 0 < ek.getD 3 0 by omega); omega
  have hxor : [x0, x1, x2, x3, x4, x5, x6, x7].foldl (fun x v => x ^^^ v) 248 < 256 := by
    exact foldl_xor_lt _ _ (by norm_num) hxmem
  simp only [convert_8to11_bytes]
  rw [hx, hew]
  simp only [convert_11to8_bytes]
  have ht0 : ([x0, x1, x2, x3, x4, x5, x6, x7].foldl (fun x v => x ^^^ v) 248 ^^^
      slice.length % 256) ^^^ 61 < 256 :=
    xor_lt_256 (xor_lt_256 hxor (Nat.mod_lt _ (by norm_num))) (by norm_num)
  rw [decode_of_mids ek dk m0 m1 m2 m3 _ _ hdk12 hdk13 hdk14 hdk15 hK0 hK1 hK2 hK3
    hmlt0 hmlt1 hmlt2 hmlt3 ht0 hxor]
  rw [enc_chain_eq, trailer_extract]
  simp only [dec_words, List.getD_cons_zero, List.getD_cons_succ, Nat.reduceAdd]
  rw [hdk0, hdk1, hdk2, hdk3, hdk12, hdk13, hdk14, hdk15]
  have hv0 : le16 [x0, x1, x2, x3, x4, x5, x6, x7] 0 = x0 + 256 * x1 := by
    simp [le16]
  have hv1 : le16 [x0, x1, x2, x3, x4, x5, x6, x7] 1 = x2 + 256 * x3 := by
    simp [le16]
  have hv2 : le16 [x0, x1, x2, x3, x4, x5, x6, x7] 2 = x4 + 256 * x5 := by
    simp [le16]
  have hv3 : le16 [x0, x1, x2, x3, x4, x5, x6, x7] 3 = x6 + 256 * x7 := by
    simp [le16]
  have r0 : (dk.getD 8 0 * m0 % 4294967296 % ek.getD 0 0) ^^^ (ek.getD 12 0 ^^^ 0) =
      le16 [x0, x1, x2, x3, x4, x5, x6, x7] 0 := by
    rw [hm0]
    exact mod_inverse_step (ek.getD 0 0) (ek.getD 4 0) (dk.getD 8 0) (ek.getD 12 0) _ 0
      hM0 hM0b he0 hd0 hinv0 (by rw [hv0]; omega) hK0 (by norm_num)
  have r1 : (dk.getD 9 0 * m1 % 4294967296 % ek.getD 1 0) ^^^
      (ek.getD 13 0 ^^^ (m0 &&& 65535)) = le16 [x0, x1, x2, x3, x4, x5, x6, x7] 1 := by
    rw [hm1]
    exact mod_inverse_step (ek.getD 1 0) (ek.getD 5 0) (dk.getD 9 0) (ek.getD 13 0) _ _
      hM1 hM1b he1 hd1 hinv1 (by rw [hv1]; omega) hK1 (land_lt_65536 m0)
  have r2 : (dk.getD 10 0 * m2 % 4294967296 % ek.getD 2 0) ^^^
      (ek.getD 14 0 ^^^ (m1 &&& 65535)) = le16 [x0, x1, x2, x3, x4, x5, x6, x7] 2 := by
    rw [hm2]
    exact mod_inverse_step (ek.getD 2 0) (ek.getD 6 0) (dk.getD 10 0) (ek.getD 14 0) _ _
      hM2 hM2b he2 hd2 hinv2 (by rw [hv2]; omega) hK2 (land_lt_65536 m1)
  have r3 : (dk.getD 11 0 * m3 % 4294967296 % ek.getD 3 0) ^^^
      (ek.getD 15 0 ^^^ (m2 &&& 65535)) = le16 [x0, x1, x2, x3, x4, x5, x6, x7] 3 := by
    rw [hm3]
    exact mod_inverse_step (ek.getD 3 0) (ek.getD 7 0) (dk.getD 11 0) (ek.getD 15 0) _ _
      hM3 hM3b he3 hd3 hinv3 (by rw [hv3]; omega) hK3 (land_lt_65536 m2)
  rw [r0, r1, r2, r3, hv0, hv1, hv2, hv3]
  have c0 : (x0 + 256 * x1) % 65536 % 256 = x0 := by omega
  have c1 : (x0 + 256 * x1) % 65536 / 256 = x1 := by omega
  have c2 : (x2 + 256 * x3) % 65536 % 256 = x2 := by omega
  have c3 : (x2 + 256 * x3) % 65536 / 256 = x3 := by omega
  have c4 : (x4 + 256 * x5) % 65536 % 256 = x4 := by omega
  have c5 : (x4 + 256 * x5) % 65536 / 256 = x5 := by omega
  have c6 : (x6 + 256 * x7) % 65536 % 256 = x6 := by omega
  have c7 : (x6 + 256 * x7) % 65536 / 256 = x7 := by omega
  rw [c0, c1, c2, c3, c4, c5, c6, c7]
  rw [if_pos rfl, xor_juggle]
  rw [show slice.length % 256 = slice.length by omega]


theorem or_into_length (out : List Nat) (base : Nat) (buffer : List Nat) (i fuel : Nat) :
    (or_into out base buffer i fuel).length = out.length := by
  induction fuel generalizing out i with
  | zero => rfl
  | succ n ih => simp [or_into, ih, List.length_set]

theorem hash_buffer_length (out : List Nat) (oo : Nat) (inp : List Nat) (oi d : Nat) :
    (hash_buffer out oo inp oi d).length = out.length := by
  simp [hash_buffer, or_into_length]

theorem pack_words_length (out : List Nat) (pos : Nat) (vs : List Nat) :
    (pack_words out pos vs).length = out.length := by
  induction vs generalizing out pos with
  | nil => rfl
  | cons v t ih => simp [pack_words, ih, hash_buffer_length]

theorem convert_8to11_length (keys slice : List Nat) :
    (convert_8to11_bytes keys slice).length = 11 := by
  simp [convert_8to11_bytes, hash_buffer_length, pack_words_length]

theorem encrypt_go_mod11 (keys : List Nat) :
    ∀ (fe : Nat) (data : List Nat), (encrypt_go keys fe data).length % 11 = 0 := by
  intro fe
  induction fe with
  | zero => intro data; cases data <;> rfl
  | succ n ih =>
    intro data
    cases data with
    | nil => rfl
    | cons b t =>
      have := ih (t.drop 7)
      simp only [encrypt_go, List.length_append, convert_8to11_length, List.drop_succ_cons] at *
      omega

theorem decrypt_go_append (dk : List Nat) (n : Nat) (c rest : List Nat)
    (hlen : c.length = 11) :
    decrypt_go dk (n+1) (c ++ rest) =
      match convert_11to8_bytes dk c with
      | .error e => .error e
      | .ok r =>
        match decrypt_go dk n rest with
        | .error e => .error e
        | .ok s => .ok (r.2 ++ s.1, r.1 + s.2) := by
  obtain ⟨y, ys, rfl⟩ : ∃ y ys, c = y :: ys := by
    cases c with
    | nil => simp at hlen
    | cons y ys => exact ⟨y, ys, rfl⟩
  have h1 : ((y :: ys) ++ rest).take 11 = y :: ys := List.take_left' hlen
  have h2 : ((y :: ys) ++ rest).drop 11 = rest := List.drop_left' hlen
  rw [List.cons_append]
  simp only [decrypt_go]
  rw [← List.cons_append, h1, h2]
  cases convert_11to8_bytes dk (y :: ys) with
  | error e => rfl
  | ok r =>
    cases decrypt_go dk n rest with
    | error e => rfl
    | ok s => rfl

set_option maxHeartbeats 1000000 in
theorem go_roundtrip (ek dk : List Nat)
    (hwf : ∀ i, i < 4 → 65535 < ek.getD i 0 ∧ ek.getD i 0 ≤ 262144 ∧
      dk.getD i 0 = ek.getD i 0 ∧ ek.getD (4+i) 0 ≤ 65535 ∧ dk.getD (8+i) 0 ≤ 16383 ∧
      ek.getD (4+i) 0 * dk.getD (8+i) 0 % ek.getD i 0 = 1 ∧
      dk.getD (12+i) 0 = ek.getD (12+i) 0 ∧ ek.getD (12+i) 0 < 65536) :
    ∀ (fd : Nat) (data : List Nat) (fe : Nat),
      data.length ≤ fe → (data.length + 7) / 8 ≤ fd → (∀ b ∈ data, b < 256) →
      decrypt_go dk fd (encrypt_go ek fe data) =
        .ok (data ++ List.replicate ((data.length + 7) / 8 * 8 - data.length) 0,
          data.length) := by
  intro fd
  induction fd with
  | zero =>
    intro data fe hfe hfd hb
    have hdata : data = [] := by
      cases data with
      | nil => rfl
      | cons x t => simp at hfd; omega
    subst hdata
    cases fe <;> rfl
  | succ n ih =>
    intro data fe hfe hfd hb
    cases data with
    | nil => cases fe <;> rfl
    | cons b t =>
      obtain ⟨fe2, rfl⟩ : ∃ fe2, fe = fe2 + 1 := by
        cases fe
        · simp at hfe
        · exact ⟨_, rfl⟩
      have hpos : 0 < (b :: t).length := by simp
      have hfe1 : (b :: t).length ≤ fe2 + 1 := hfe
      have hfd1 : ((b :: t).length + 7) / 8 ≤ n + 1 := hfd
      have h1 : ((b :: t).drop 8).length ≤ fe2 := by
        simp only [List.length_drop]
        simp only [List.length_cons] at hfe1 ⊢
        omega
      have h2 : (((b :: t).drop 8).length + 7) / 8 ≤ n := by
        simp only [List.length_drop]
        simp only [List.length_cons] at hfd1 ⊢
        omega
      show decrypt_go dk (n+1)
        (convert_8to11_bytes ek ((b :: t).take 8) ++ encrypt_go ek fe2 ((b :: t).drop 8)) = _
      rw [decrypt_go_append dk n _ _ (convert_8to11_length ek ((b :: t).take 8))]
      rw [convert_roundtrip ek dk ((b :: t).take 8) hwf (List.length_take_le _ _)
        (fun x hx => hb x (List.take_subset _ _ hx))]
      rw [ih ((b :: t).drop 8) fe2 h1 h2 (fun x hx => hb x (List.drop_subset _ _ hx))]
      simp only []
      rw [Except.ok.injEq, Prod.mk.injEq]
      constructor
      · by_cases h8 : (b :: t).length ≤ 8
        · rw [List.take_of_length_le h8, List.drop_eq_nil_of_le h8]
          simp only [slice_with_padding, List.length_nil, List.nil_append,
            List.append_nil, Nat.zero_add, Nat.reduceDiv, Nat.reduceMul,
            Nat.sub_zero, List.replicate_zero]
          rw [show ((b :: t).length + 7) / 8 * 8 - (b :: t).length
            = 8 - (b :: t).length by omega]
        · have hone : 8 - ((b :: t).take 8).length = 0 := by
            simp only [List.length_take]
            omega
          simp only [slice_with_padding, hone, List.replicate_zero, List.append_nil]
          rw [← List.append_assoc, List.take_append_drop]
          congr 2
          simp only [List.length_drop]
          omega
      · simp only [List.length_take, List.length_drop]
        omega


theorem except_bind_ok {α β : Type} (a : α) (f : α → Except IoErr β) :
    (Except.ok a : Except IoErr α) >>= f = f a := rfl

theorem encrypt_go_length (keys : List Nat) :
    ∀ (fe : Nat) (data : List Nat), data.length ≤ fe →
      (encrypt_go keys fe data).length = (data.length + 7) / 8 * 11 := by
  intro fe
  induction fe with
  | zero =>
    intro data h
    have hnil : data = [] := by
      cases data with
      | nil => rfl
      | cons x t => simp at h
    subst hnil
    rfl
  | succ n ih =>
    intro data h
    cases data with
    | nil => rfl
    | cons b t =>
      have h2 : ((b :: t).drop 8).length ≤ n := by
        simp only [List.length_drop, List.length_cons] at h ⊢
        omega
      simp only [encrypt_go, List.length_append, convert_8to11_length, ih _ h2]
      simp only [List.length_drop, List.length_cons]
      omega

theorem crypto_roundtrip (c : Crypto) (hwf : table_wf c.enc c.dec)
    (data : List Nat) (hb : ∀ b ∈ data, b < 256) :
    c.decrypt (c.encrypt data) = .ok data := by
  have hlen := encrypt_go_length c.enc data.length data (Nat.le_refl _)
  have hmod := encrypt_go_mod11 c.enc data.length data
  have hrt := go_roundtrip c.enc c.dec hwf (encrypt_go c.enc data.length data).length
    data data.length (Nat.le_refl _) (by omega) hb
  simp only [Crypto.decrypt, Crypto.encrypt, if_pos hmod, hrt, Except.map]
  rw [List.take_left]

theorem roundtrip_frame_aux (S : Crypto) (hwf : table_wf S.enc S.dec)
    (k : PacketKind) (code n : Nat) (data frame rest : List Nat)
    (hkind : k = PacketKind.C1 ∨ k = PacketKind.C2)
    (hcode : code < 256) (hn : n < 256)
    (hdata : ∀ b ∈ data, b < 256)
    (hser : Packet.to_bytes_ex ⟨k, code, data⟩ none (some (S, n)) = some frame) :
    Packet.from_bytes_ex (frame ++ rest) none (some S) =
      .ok (⟨k, code, data⟩, frame.length, some n) := by
  have hdec : S.decrypt (S.encrypt (n :: code :: data)) = .ok (n :: code :: data) :=
    crypto_roundtrip S hwf _ (by
      intro x hx
      rcases List.mem_cons.mp hx with rfl | hx
      · exact hn
      rcases List.mem_cons.mp hx with rfl | hx
      · exact hcode
      exact hdata x hx)
  rcases hkind with rfl | rfl
  · have e1 : PacketKind.encrypted PacketKind.C1 = PacketKind.C3 := rfl
    have e2 : PacketKind.offset PacketKind.C3 = 2 := rfl
    have e3 : PacketKind.bytes PacketKind.C3 = 1 := rfl
    have e4 : PacketKind.max_size PacketKind.C3 = 255 := rfl
    have e5 : PacketKind.toByte PacketKind.C3 = 195 := rfl
    simp only [Packet.to_bytes_ex, ite_self, e1, e2, e3, e4, e5,
      List.singleton_append, List.cons_append, List.nil_append] at hser
    split at hser
    next hlen =>
      split at hser
      next hmax =>
        rw [Option.some.injEq] at hser
        subst hser
        obtain ⟨E, hE⟩ : ∃ E, S.encrypt (n :: code :: data) = E := ⟨_, rfl⟩
        rw [hE] at hdec hmax ⊢
        have hw : write_uint (E.length + 2) 1 = [E.length + 2] := by
          simp only [write_uint, pow_zero, Nat.div_one]
          rw [Nat.mod_eq_of_lt (by omega)]
        rw [hw]
        simp only [List.cons_append, List.singleton_append, List.nil_append,
          List.append_assoc]
        have hr0 : read_u8 (195 :: (E.length + 2) :: (E ++ rest)) 0 = .ok (195, 1) := by
          simp [read_u8]
        have hfb : PacketKind.from_byte 195 = some PacketKind.C3 := rfl
        have hr1 : read_uint (195 :: (E.length + 2) :: (E ++ rest)) 1 1 =
            .ok (E.length + 2, 2) := by
          simp [read_uint, read_u8]
          rfl
        have hlt : ¬ ((195 :: (E.length + 2) :: (E ++ rest)).length < E.length + 2) := by
          simp only [List.length_cons, List.length_append]
          omega
        have hie : PacketKind.is_encrypted PacketKind.C3 = true := rfl
        have ht : ((195 :: (E.length + 2) :: (E ++ rest)).take (E.length + 2)).drop 2 = E := by
          simp only [List.take_succ_cons, List.drop_succ_cons, List.drop_zero]
          exact List.take_left' rfl
        have hbr0 : read_u8 (n :: code :: data) 0 = .ok (n, 1) := by simp [read_u8]
        have hbr1 : read_u8 (n :: code :: data) 1 = .ok (code, 2) := by simp [read_u8]
        have hpf : parse_finish PacketKind.C3 code ((n :: code :: data).drop 2) none =
            ⟨PacketKind.C1, code, data⟩ := by
          simp [parse_finish, recipher, Packet.new, Packet.append, PacketKind.decrypted,
            ite_self]
        simp only [Packet.from_bytes_ex, hr0, hfb, e3, hr1]
        rw [if_neg hlt, if_pos hie]
        simp only [e2, ht, hdec, hbr0, hbr1, hpf]
        simp only [Except.ok.injEq, Prod.mk.injEq, List.length_cons]
      next => exact Option.noConfusion hser
    next => exact Option.noConfusion hser
  · have e1 : PacketKind.encrypted PacketKind.C2 = PacketKind.C4 := rfl
    have e2 : PacketKind.offset PacketKind.C4 = 3 := rfl
    have e3 : PacketKind.bytes PacketKind.C4 = 2 := rfl
    have e4 : PacketKind.max_size PacketKind.C4 = 65535 := rfl
    have e5 : PacketKind.toByte PacketKind.C4 = 196 := rfl
    simp only [Packet.to_bytes_ex, ite_self, e1, e2, e3, e4, e5,
      List.singleton_append, List.cons_append, List.nil_append] at hser
    split at hser
    next hlen =>
      split at hser
      next hmax =>
        rw [Option.some.injEq] at hser
        subst hser
        obtain ⟨E, hE⟩ : ∃ E, S.encrypt (n :: code :: data) = E := ⟨_, rfl⟩
        rw [hE] at hdec hmax ⊢
        have hw : write_uint (E.length + 3) 2 =
            [(E.length + 3) / 256 % 256, (E.length + 3) % 256] := by
          simp only [write_uint, pow_zero, pow_one, Nat.div_one]
        rw [hw]
        simp only [List.cons_append, List.singleton_append, List.nil_append,
          List.append_assoc]
        have hr0 : read_u8 (196 :: (E.length + 3) / 256 % 256 :: (E.length + 3) % 256 ::
            (E ++ rest)) 0 = .ok (196, 1) := by
          simp [read_u8]
        have hfb : PacketKind.from_byte 196 = some PacketKind.C4 := rfl
        have hr1 : read_uint (196 :: (E.length + 3) / 256 % 256 :: (E.length + 3) % 256 ::
            (E ++ rest)) 1 2 =
            .ok (E.length + 3, 3) := by
          have ha : read_u8 (196 :: (E.length + 3) / 256 % 256 :: (E.length + 3) % 256 ::
              (E ++ rest)) 1 = .ok ((E.length + 3) / 256 % 256, 2) := by simp [read_u8]
          have hb : read_u8 (196 :: (E.length + 3) / 256 % 256 :: (E.length + 3) % 256 ::
              (E ++ rest)) 2 = .ok ((E.length + 3) % 256, 3) := by simp [read_u8]
          simp [read_uint, ha, hb, except_bind_ok]
          omega
        have hlt : ¬ ((196 :: (E.length + 3) / 256 % 256 :: (E.length + 3) % 256 ::
            (E ++ rest)).length < E.length + 3) := by
          simp only [List.length_cons, List.length_append]
          omega
        have hie : PacketKind.is_encrypted PacketKind.C4 = true := rfl
        have ht : ((196 :: (E.length + 3) / 256 % 256 :: (E.length + 3) % 256 ::
            (E ++ rest)).take (E.length + 3)).drop 3 = E := by
          simp only [List.take_succ_cons, List.drop_succ_cons, List.drop_zero]
          exact List.take_left' rfl
        have hbr0 : read_u8 (n :: code :: data) 0 = .ok (n, 1) := by simp [read_u8]
        have hbr1 : read_u8 (n :: code :: data) 1 = .ok (code, 2) := by simp [read_u8]
        have hpf : parse_finish PacketKind.C4 code ((n :: code :: data).drop 2) none =
            ⟨PacketKind.C2, code, data⟩ := by
          simp [parse_finish, recipher, Packet.new, Packet.append, PacketKind.decrypted,
            ite_self]
        simp only [Packet.from_bytes_ex, hr0, hfb, e3, hr1]
        rw [if_neg hlt, if_pos hie]
        simp only [e2, ht, hdec, hbr0, hbr1, hpf]
        simp only [Except.ok.injEq, Prod.mk.injEq, List.length_cons]
      next => exact Option.noConfusion hser
    next => exact Option.noConfusion hser

set_option maxRecDepth 40000 in
/-- C1: for each built-in scheme (CLIENT or SERVER), every counter byte n
and every packet of plaintext kind with a byte opcode and byte payload
values whose encrypted serialization succeeds, parsing the produced frame
with the same scheme and no xor cipher succeeds and returns a packet equal
to the original together with the full frame length and the embedded
counter n. -/
theorem claim_C1_roundtrip (S : Crypto) (p : Packet) (n : Nat) (frame : List Nat)
    (hS : S = CLIENT ∨ S = SERVER)
    (hkind : p.kind = PacketKind.C1 ∨ p.kind = PacketKind.C2)
    (hcode : p.code < 256) (hn : n < 256)
    (hdata : ∀ b ∈ p.data, b < 256)
    (hser : p.to_bytes_ex none (some (S, n)) = some frame) :
    Packet.from_bytes_ex frame none (some S) = .ok (p, frame.length, some n) := by
  have hwf : table_wf S.enc S.dec := by
    unfold table_wf
    rcases hS with rfl | rfl
    · decide
    · decide
  obtain ⟨k, code, data⟩ := p
  have h := roundtrip_frame_aux S hwf k code n data frame [] hkind hcode hn hdata hser
  rw [List.append_nil] at h
  exact h

set_option maxRecDepth 40000 in
theorem claim_C1_roundtrip_witness :
    Packet.from_bytes_ex [195, 13, 138, 220, 83, 248, 13, 172, 211, 177, 156, 223, 230]
      none (some CLIENT) =
    .ok (⟨PacketKind.C1, 0x18, [1, 2]⟩,
      ([195, 13, 138, 220, 83, 248, 13, 172, 211, 177, 156, 223, 230] : List Nat).length,
      some 5) :=
  claim_C1_roundtrip CLIENT ⟨PacketKind.C1, 0x18, [1, 2]⟩ 5
    [195, 13, 138, 220, 83, 248, 13, 172, 211, 177, 156, 223, 230]
    (Or.inl rfl) (Or.inl rfl) (by decide) (by decide) (by decide) (by rfl)



theorem encode_mk_codec (S : Crypto) (a b : Nat) (p : Packet) :
    (mk_codec S a b).encode p [] =
      match p.to_bytes_ex none (some (S, a)) with
      | some bytes => some (bytes, mk_codec S ((a + 1) % 256) b)
      | none => none := by
  have hm : (Option.map (fun cr => (cr, a)) (some S)) = some (S, a) := rfl
  simp only [PacketCodec.encode, mk_codec, hm]
  cases p.to_bytes_ex none (some (S, a)) with
  | none => rfl
  | some bytes => rfl

theorem to_bytes_ex_enc_ne_nil (p : Packet) (S : Crypto) (n : Nat) (bytes : List Nat)
    (h : p.to_bytes_ex none (some (S, n)) = some bytes) : bytes ≠ [] := by
  simp only [Packet.to_bytes_ex, ite_self] at h
  split at h
  next =>
    split at h
    next =>
      rw [Option.some.injEq] at h
      subst h
      exact List.cons_ne_nil _ _
    next => exact Option.noConfusion h
  next => exact Option.noConfusion h

theorem codec_walk (S : Crypto) (hwf : table_wf S.enc S.dec) :
    ∀ (ps : List Packet) (m b : Nat) (frames : List (List Nat)) (c' : PacketCodec),
      m < 256 →
      (∀ p ∈ ps, wire_safe p) →
      encode_seq (mk_codec S m b) ps = some (frames, c') →
      frames.length = ps.length ∧
      c' = mk_codec S ((m + ps.length) % 256) b ∧
      ∀ i, i < ps.length → frames.getD i [] ≠ [] ∧ ∀ tail,
        Packet.from_bytes_ex (frames.getD i [] ++ tail) none (some S) =
          .ok (ps.getD i (Packet.new PacketKind.C1 0), (frames.getD i []).length,
            some ((m + i) % 256)) := by
  intro ps
  induction ps with
  | nil =>
    intro m b frames c' hm hv henc
    simp only [encode_seq] at henc
    rw [Option.some.injEq, Prod.mk.injEq] at henc
    obtain ⟨rfl, rfl⟩ := henc
    refine ⟨rfl, ?_, ?_⟩
    · simp only [List.length_nil, Nat.add_zero, Nat.mod_eq_of_lt hm]
    · intro i hi
      simp at hi
  | cons p ps ih =>
    intro m b frames c' hm hv henc
    simp only [encode_seq, encode_mk_codec] at henc
    cases hto : p.to_bytes_ex none (some (S, m)) with
    | none =>
      rw [hto] at henc
      simp only [] at henc
      exact Option.noConfusion henc
    | some bytes =>
      rw [hto] at henc
      simp only [] at henc
      cases hrec : encode_seq (mk_codec S ((m + 1) % 256) b) ps with
      | none =>
        rw [hrec] at henc
        simp only [Option.map] at henc
        exact Option.noConfusion henc
      | some r =>
        obtain ⟨fs, c2⟩ := r
        rw [hrec] at henc
        simp only [Option.map] at henc
        rw [Option.some.injEq, Prod.mk.injEq] at henc
        obtain ⟨rfl, rfl⟩ := henc
        have hm2 : (m + 1) % 256 < 256 := Nat.mod_lt _ (by omega)
        have hv2 : ∀ q ∈ ps, wire_safe q := fun q hq => hv q (List.mem_cons_of_mem _ hq)
        obtain ⟨hlen, hc2, hparse⟩ := ih ((m + 1) % 256) b fs c2 hm2 hv2 hrec
        refine ⟨by simp [hlen], ?_, ?_⟩
        · rw [hc2]
          congr 1
          simp only [List.length_cons]
          omega
        · intro i hi
          cases i with
          | zero =>
            simp only [List.getD_cons_zero]
            obtain ⟨hk, hc, hd⟩ := hv p (List.mem_cons_self p ps)
            refine ⟨to_bytes_ex_enc_ne_nil p S m bytes hto, ?_⟩
            intro tail
            have h := roundtrip_frame_aux S hwf p.kind p.code m p.data bytes tail
              hk hc hm hd hto
            rw [show (m + 0) % 256 = m from by omega]
            exact h
          | succ j =>
            simp only [List.getD_cons_succ]
            have hj : j < ps.length := by
              simp only [List.length_cons] at hi
              omega
            obtain ⟨hne, hp⟩ := hparse j hj
            refine ⟨hne, fun tail => ?_⟩
            have h := hp tail
            rw [show (m + (j + 1)) % 256 = ((m + 1) % 256 + j) % 256 from by omega]
            exact h

theorem decode_mk_codec_ok (S : Crypto) (a m : Nat) (frame rest : List Nat) (p : Packet)
    (hne : frame ≠ [])
    (hparse : Packet.from_bytes_ex (frame ++ rest) none (some S) =
      .ok (p, frame.length, some m)) :
    (mk_codec S a m).decode (frame ++ rest) =
      (.ok (some p), rest, mk_codec S a ((m + 1) % 256)) := by
  have h0 : ¬ ((frame ++ rest).length = 0) := by
    simp only [List.length_append]
    have : frame.length ≠ 0 := fun h => hne (List.length_eq_zero.mp h)
    omega
  simp only [PacketCodec.decode, mk_codec]
  rw [if_neg h0, if_neg Bool.false_ne_true]
  simp only [hparse]
  rw [if_neg (fun h => h rfl)]
  rw [List.drop_left]

theorem decode_mk_codec_mismatch (S : Crypto) (a e m : Nat) (frame rest : List Nat)
    (p : Packet) (hne : frame ≠ []) (hcnt : e ≠ m)
    (hparse : Packet.from_bytes_ex (frame ++ rest) none (some S) =
      .ok (p, frame.length, some m)) :
    (mk_codec S a e).decode (frame ++ rest) =
      (.error (.otherErr ("invalid decryption counter " ++ toString m ++
        ", expected " ++ toString e)), rest, mk_codec S a e) := by
  have h0 : ¬ ((frame ++ rest).length = 0) := by
    simp only [List.length_append]
    have : frame.length ≠ 0 := fun h => hne (List.length_eq_zero.mp h)
    omega
  simp only [PacketCodec.decode, mk_codec]
  rw [if_neg h0, if_neg Bool.false_ne_true]
  simp only [hparse]
  rw [if_pos hcnt]
  rw [List.drop_left]

theorem decode_frames (S : Crypto) :
    ∀ (ps : List Packet) (frames : List (List Nat)) (a m : Nat),
      m < 256 →
      frames.length = ps.length →
      (∀ i, i < ps.length → frames.getD i [] ≠ [] ∧ ∀ tail,
        Packet.from_bytes_ex (frames.getD i [] ++ tail) none (some S) =
          .ok (ps.getD i (Packet.new PacketKind.C1 0), (frames.getD i []).length,
            some ((m + i) % 256))) →
      decode_drain (mk_codec S a m) (frames.foldr (fun x y => x ++ y) []) ps.length =
        .ok (ps, [], mk_codec S a ((m + ps.length) % 256)) := by
  intro ps
  induction ps with
  | nil =>
    intro frames a m hm hlen hfacts
    have hf : frames = [] := by simp at hlen; exact hlen
    subst hf
    simp only [List.length_nil, Nat.add_zero, Nat.mod_eq_of_lt hm]
    rfl
  | cons p ps ih =>
    intro frames a m hm hlen hfacts
    obtain ⟨f, fs, rfl⟩ : ∃ f fs, frames = f :: fs := by
      cases frames with
      | nil => simp at hlen
      | cons f fs => exact ⟨f, fs, rfl⟩
    obtain ⟨hne0, hp0⟩ := hfacts 0 (by simp)
    simp only [List.getD_cons_zero] at hne0 hp0
    have hp0f := hp0 (fs.foldr (fun x y => x ++ y) [])
    rw [show (m + 0) % 256 = m from by omega] at hp0f
    simp only [List.foldr_cons, List.length_cons, decode_drain]
    rw [decode_mk_codec_ok S a m f (fs.foldr (fun x y => x ++ y) []) p hne0 hp0f]
    simp only []
    have hm2 : (m + 1) % 256 < 256 := Nat.mod_lt _ (by omega)
    have hlen2 : fs.length = ps.length := by
      simp only [List.length_cons] at hlen
      omega
    have hfacts2 : ∀ i, i < ps.length → fs.getD i [] ≠ [] ∧ ∀ tail,
        Packet.from_bytes_ex (fs.getD i [] ++ tail) none (some S) =
          .ok (ps.getD i (Packet.new PacketKind.C1 0), (fs.getD i []).length,
            some (((m + 1) % 256 + i) % 256)) := by
      intro i hi
      obtain ⟨hne, hp⟩ := hfacts (i + 1) (by simp only [List.length_cons]; omega)
      simp only [List.getD_cons_succ] at hne hp
      refine ⟨hne, fun tail => ?_⟩
      have h := hp tail
      rw [show ((m + 1) % 256 + i) % 256 = (m + (i + 1)) % 256 from by omega]
      exact h
    rw [ih fs a ((m + 1) % 256) hm2 hlen2 hfacts2]
    simp only [Except.map]
    rw [show ((m + 1) % 256 + ps.length) % 256 = (m + (ps.length + 1)) % 256 from by omega]

set_option maxRecDepth 40000 in
/-- C4: a codec configured with a built-in crypto scheme that encodes k
consecutive frames starting from counter 0 embeds the counters 0 to k - 1
modulo 256 in the successive encrypted frames; a peer codec with the
matching scheme and receive counter 0 decodes them all in order
successfully; and presenting a frame out of order or after a skip, that is
any frame whose embedded counter differs from the receive counter, makes
decode fail with the counter mismatch error. -/
theorem claim_C4_counter_walk (S : Crypto) (ps : List Packet)
    (frames : List (List Nat)) (c' : PacketCodec)
    (hS : S = CLIENT ∨ S = SERVER)
    (hvalid : ∀ p ∈ ps, wire_safe p)
    (henc : encode_seq (mk_codec S 0 0) ps = some (frames, c')) :
    (∀ i, i < ps.length →
      Packet.from_bytes_ex (frames.getD i []) none (some S) =
        .ok (ps.getD i (Packet.new PacketKind.C1 0), (frames.getD i []).length,
          some (i % 256))) ∧
    decode_drain (mk_codec S 0 0) (frames.foldr (fun x y => x ++ y) []) ps.length =
      .ok (ps, [], mk_codec S 0 (ps.length % 256)) ∧
    (∀ i j, i < ps.length → j < ps.length → i % 256 ≠ j % 256 → ∀ rest,
      (mk_codec S 0 (i % 256)).decode (frames.getD j [] ++ rest) =
        (.error (.otherErr ("invalid decryption counter " ++ toString (j % 256) ++
          ", expected " ++ toString (i % 256))), rest, mk_codec S 0 (i % 256))) := by
  have hwf : table_wf S.enc S.dec := by
    unfold table_wf
    rcases hS with rfl | rfl
    · decide
    · decide
  obtain ⟨hlen, hc2, hparse⟩ := codec_walk S hwf ps 0 0 frames c' (by omega) hvalid henc
  refine ⟨?_, ?_, ?_⟩
  · intro i hi
    obtain ⟨hne, hp⟩ := hparse i hi
    have h := hp []
    rw [List.append_nil] at h
    rw [show (0 + i) % 256 = i % 256 from by omega] at h
    exact h
  · have h := decode_frames S ps frames 0 0 (by omega) hlen (fun i hi => hparse i hi)
    rw [show (0 + ps.length) % 256 = ps.length % 256 from by omega] at h
    exact h
  · intro i j hi hj hmne rest
    obtain ⟨hne, hp⟩ := hparse j hj
    have h := hp rest
    rw [show (0 + j) % 256 = j % 256 from by omega] at h
    exact decode_mk_codec_mismatch S 0 (i % 256) (j % 256)
      (frames.getD j []) rest (ps.getD j (Packet.new PacketKind.C1 0)) hne hmne h

set_option maxRecDepth 40000 in
theorem claim_C4_counter_walk_witness :
    (∀ i, i < ([⟨PacketKind.C1, 0x19, []⟩, ⟨PacketKind.C1, 0x20, [7]⟩] : List Packet).length →
      Packet.from_bytes_ex (([[195, 13, 41, 168, 9, 161, 205, 23, 132, 66, 96, 222, 225], [195, 13, 253, 15, 52, 205, 77, 97, 117, 76, 157, 224, 222]] : List (List Nat)).getD i []) none (some CLIENT) =
        .ok (([⟨PacketKind.C1, 0x19, []⟩, ⟨PacketKind.C1, 0x20, [7]⟩] : List Packet).getD i (Packet.new PacketKind.C1 0), (([[195, 13, 41, 168, 9, 161, 205, 23, 132, 66, 96, 222, 225], [195, 13, 253, 15, 52, 205, 77, 97, 117, 76, 157, 224, 222]] : List (List Nat)).getD i []).length,
          some (i % 256))) ∧
    decode_drain (mk_codec CLIENT 0 0) (([[195, 13, 41, 168, 9, 161, 205, 23, 132, 66, 96, 222, 225], [195, 13, 253, 15, 52, 205, 77, 97, 117, 76, 157, 224, 222]] : List (List Nat)).foldr (fun x y => x ++ y) []) ([⟨PacketKind.C1, 0x19, []⟩, ⟨PacketKind.C1, 0x20, [7]⟩] : List Packet).length =
      .ok (([⟨PacketKind.C1, 0x19, []⟩, ⟨PacketKind.C1, 0x20, [7]⟩] : List Packet), [], mk_codec CLIENT 0 (([⟨PacketKind.C1, 0x19, []⟩, ⟨PacketKind.C1, 0x20, [7]⟩] : List Packet).length % 256)) ∧
    (∀ i j, i < ([⟨PacketKind.C1, 0x19, []⟩, ⟨PacketKind.C1, 0x20, [7]⟩] : List Packet).length → j < ([⟨PacketKind.C1, 0x19, []⟩, ⟨PacketKind.C1, 0x20, [7]⟩] : List Packet).length → i % 256 ≠ j % 256 → ∀ rest,
      (mk_codec CLIENT 0 (i % 256)).decode (([[195, 13, 41, 168, 9, 161, 205, 23, 132, 66, 96, 222, 225], [195, 13, 253, 15, 52, 205, 77, 97, 117, 76, 157, 224, 222]] : List (List Nat)).getD j [] ++ rest) =
        (.error (.otherErr ("invalid decryption counter " ++ toString (j % 256) ++
          ", expected " ++ toString (i % 256))), rest, mk_codec CLIENT 0 (i % 256))) :=
  claim_C4_counter_walk CLIENT ([⟨PacketKind.C1, 0x19, []⟩, ⟨PacketKind.C1, 0x20, [7]⟩] : List Packet) ([[195, 13, 41, 168, 9, 161, 205, 23, 132, 66, 96, 222, 225], [195, 13, 253, 15, 52, 205, 77, 97, 117, 76, 157, 224, 222]] : List (List Nat)) (mk_codec CLIENT 2 0)
    (Or.inl rfl)
    (by
      intro p hp
      unfold wire_safe
      fin_cases hp
      · decide
      · decide)
    (by rfl)


end MuPacket
